import Mathlib

/-!
Verification development for the sayso-agent task scheduler and
placeholder-substitution core.

The embedding covers:
* the JSON-like dynamic values carried in action parameters (`JValue`),
* the regex-based placeholder substitution of `internal/service/asr.go`
  (`replacePlaceholdersInString` / `replacePlaceholdersInValue` /
  `updatePlaceholders`),
* the wave-based dependency scheduler of the llm service
  (`executeTasks`, `canExecute`, `executeTask`, `resolvePlaceholders`,
  `buildOutput`, `Process`).

Go maps are embedded as association lists without duplicate keys, with
overwrite-on-insert (`setEntry`); recursions whose measure is the remaining
input length are written with an explicit fuel argument that majorizes the
recursion depth, so that every definition is structural and evaluates inside
the kernel.
-/

namespace Sayso

/-- Lookup in an association list, mirroring a read `m[k]` of a Go map. -/
def alookup {α : Type} (m : List (String × α)) (k : String) : Option α :=
  match m with
  | [] => none
  | (k', v) :: rest => if k' = k then some v else alookup rest k

/-- Overwrite-insert, mirroring a write `m[k] = v` of a Go map: replaces the
binding in place if the key is present, else appends it. -/
def setEntry {α : Type} (m : List (String × α)) (k : String) (v : α) : List (String × α) :=
  match m with
  | [] => [(k, v)]
  | (k', v') :: rest => if k' = k then (k, v) :: rest else (k', v') :: setEntry rest k v

theorem alookup_setEntry_self {α : Type} (m : List (String × α)) (k : String) (v : α) :
    alookup (setEntry m k v) k = some v := by
  induction m with
  | nil => simp [setEntry, alookup]
  | cons e rest ih =>
    obtain ⟨k', v'⟩ := e
    by_cases h : k' = k
    · simp [setEntry, h, alookup]
    · simp [setEntry, h, alookup, ih]

theorem alookup_setEntry_ne {α : Type} (m : List (String × α)) (k k' : String) (v : α)
    (h : k ≠ k') : alookup (setEntry m k v) k' = alookup m k' := by
  induction m with
  | nil => simp [setEntry, alookup, h]
  | cons e rest ih =>
    obtain ⟨k0, v0⟩ := e
    by_cases h0 : k0 = k
    · subst h0
      simp [setEntry, alookup, h]
    · by_cases h1 : k0 = k'
      · simp [setEntry, h0, alookup, h1, Ne.symm h]
      · simp [setEntry, h0, alookup, h1, ih]

/-- The set of keys after an insert. -/
theorem alookup_setEntry (m : List (String × α)) (k k' : String) (v : α) :
    alookup (setEntry m k v) k' = if k = k' then some v else alookup m k' := by
  by_cases h : k = k'
  · subst h; simp [alookup_setEntry_self]
  · simp [h, alookup_setEntry_ne m k k' v h]

/-! ## Dynamic JSON-like values (`map[string]interface{}` action parameters)

`JValue` embeds the dynamic values carried in `ActionSpec.Params`: strings,
string-keyed maps, lists, and other scalars (numbers, booleans, null), which
the substitution code never touches.  Values reaching the substitution come
from JSON decoding, which produces `map[string]interface{}` and never
`map[string]string`, so that redundant branch of
`replacePlaceholdersInValue` is not modelled. -/

inductive JValue where
  | s : String → JValue
  | m : List (String × JValue) → JValue
  | l : List JValue → JValue
  | other : Int → JValue

/-! ## `internal/service/asr.go`: regex-based placeholder substitution

`placeholderRE = \x7b\x7b(\w+)\x7d\x7d` (two literal opening braces, one or
more word characters, two literal closing braces).
`replacePlaceholdersInString` is `placeholderRE.ReplaceAllStringFunc`:
leftmost-first scan, greedy word run, replacement text is never rescanned in
the same pass, tokens whose key is absent from the store are kept verbatim.
The scanner below is that automaton on `List Char`; `fuel` only majorizes the
number of steps (each step consumes at least one input character), so
`fuel = length of the input` always suffices. -/

/-- The `\w` class of the Go regexp package: `[0-9A-Za-z_]`. -/
def isWordChar (c : Char) : Bool := c.isAlphanum || c = '_'

/-- After the two opening braces, a token match requires a nonempty greedy
run of word characters immediately followed by two closing braces; returns
the word and the characters after the token. -/
def tokenSplit (cs2 : List Char) : Option (List Char × List Char) :=
  match cs2.takeWhile isWordChar, cs2.dropWhile isWordChar with
  | w@(_ :: _), '\x7d' :: '\x7d' :: rest2 => some (w, rest2)
  | _, _ => none

theorem tokenSplit_eq (cs2 w rest2 : List Char)
    (h : tokenSplit cs2 = some (w, rest2)) :
    w ++ '\x7d' :: '\x7d' :: rest2 = cs2 ∧ w ≠ [] ∧ rest2.length + 2 ≤ cs2.length := by
  have hsplit : cs2.takeWhile isWordChar = w ∧ cs2.dropWhile isWordChar = '\x7d' :: '\x7d' :: rest2 ∧ w ≠ [] := by
    unfold tokenSplit at h
    rcases htk : cs2.takeWhile isWordChar with _ | ⟨hd, tl⟩ <;> rw [htk] at h
    · simp at h
    · rcases hdw : cs2.dropWhile isWordChar with _ | ⟨d1, r1⟩ <;> rw [hdw] at h
      · simp at h
      · rcases r1 with _ | ⟨d2, r2⟩
        · by_cases h1 : d1 = '\x7d' <;> simp [h1] at h
        · by_cases h1 : d1 = '\x7d'
          · by_cases h2 : d2 = '\x7d'
            · subst h1; subst h2
              simp only [Option.some.injEq, Prod.mk.injEq] at h
              obtain ⟨hw, hr⟩ := h
              subst hw
              exact ⟨rfl, by rw [hr], by simp⟩
            · simp [h1, h2] at h
          · simp [h1] at h
  obtain ⟨htk, hdw, hne⟩ := hsplit
  refine ⟨?_, hne, ?_⟩
  · rw [← htk, ← hdw]
    exact List.takeWhile_append_dropWhile isWordChar cs2
  · have hlen := congrArg List.length (List.takeWhile_append_dropWhile isWordChar cs2)
    rw [hdw] at hlen
    simp only [List.length_append, List.length_cons] at hlen
    omega

/-- One pass of `placeholderRE.ReplaceAllStringFunc` over the characters. -/
def substChars (ph : List (String × String)) : Nat → List Char → List Char
  | 0, l => l
  | _ + 1, [] => []
  | fuel + 1, c :: cs =>
    if c = '\x7b' then
      match cs with
      | '\x7b' :: cs2 =>
        match tokenSplit cs2 with
        | some (w, rest2) =>
          match alookup ph (String.mk w) with
          | some v => v.data ++ substChars ph fuel rest2
          | none => c :: '\x7b' :: (w ++ '\x7d' :: '\x7d' :: substChars ph fuel rest2)
        | none => c :: substChars ph fuel cs
      | _ => c :: substChars ph fuel cs
    else c :: substChars ph fuel cs

/-- Whether the scan would resolve at least one token, i.e. some
well-formed placeholder token with a key present in the store occurs. -/
def hasResolvableTok (ph : List (String × String)) : Nat → List Char → Bool
  | 0, _ => false
  | _ + 1, [] => false
  | fuel + 1, c :: cs =>
    if c = '\x7b' then
      match cs with
      | '\x7b' :: cs2 =>
        match tokenSplit cs2 with
        | some (w, rest2) =>
          match alookup ph (String.mk w) with
          | some _ => true
          | none => hasResolvableTok ph fuel rest2
        | none => hasResolvableTok ph fuel cs
      | _ => hasResolvableTok ph fuel cs
    else hasResolvableTok ph fuel cs

/-- `replacePlaceholdersInString` of `internal/service/asr.go`. -/
def replacePlaceholdersInString (s : String) (ph : List (String × String)) : String :=
  String.mk (substChars ph s.data.length s.data)

mutual
/-- `replacePlaceholdersInValue` of `internal/service/asr.go`: recursively
replaces placeholders in every string of a dynamic value. -/
def replacePlaceholdersInValue (ph : List (String × String)) : JValue → JValue
  | .s str => .s (replacePlaceholdersInString str ph)
  | .m entries => .m (replacePlaceholdersInEntries ph entries)
  | .l items => .l (replacePlaceholdersInList ph items)
  | .other n => .other n

/-- `replacePlaceholdersInMap` of `internal/service/asr.go`, on the entries. -/
def replacePlaceholdersInEntries (ph : List (String × String)) :
    List (String × JValue) → List (String × JValue)
  | [] => []
  | (k, v) :: rest =>
    (k, replacePlaceholdersInValue ph v) :: replacePlaceholdersInEntries ph rest

/-- The `[]any` branch of `replacePlaceholdersInValue`. -/
def replacePlaceholdersInList (ph : List (String × String)) : List JValue → List JValue
  | [] => []
  | v :: rest => replacePlaceholdersInValue ph v :: replacePlaceholdersInList ph rest
end

mutual
/-- Lifts `hasResolvableTok` to dynamic values: some string of the value
contains a resolvable placeholder token. -/
def hasResolvableTokV (ph : List (String × String)) : JValue → Bool
  | .s str => hasResolvableTok ph str.data.length str.data
  | .m entries => hasResolvableTokEntries ph entries
  | .l items => hasResolvableTokList ph items
  | .other _ => false

def hasResolvableTokEntries (ph : List (String × String)) : List (String × JValue) → Bool
  | [] => false
  | (_, v) :: rest => hasResolvableTokV ph v || hasResolvableTokEntries ph rest

def hasResolvableTokList (ph : List (String × String)) : List JValue → Bool
  | [] => false
  | v :: rest => hasResolvableTokV ph v || hasResolvableTokList ph rest
end

theorem substChars_id_of_no_tok (ph : List (String × String)) :
    ∀ fuel l, hasResolvableTok ph fuel l = false → substChars ph fuel l = l := by
  intro fuel l
  induction fuel, l using substChars.induct ph with
  | case1 l => intro h; simp [substChars]
  | case2 n => intro h; simp [substChars]
  | case3 fuel cs2 w rest2 hts v hv ih =>
    intro h
    exfalso
    simp [hasResolvableTok, hts, hv] at h
  | case4 fuel cs2 w rest2 hts hv ih =>
    intro h
    have h' : hasResolvableTok ph fuel rest2 = false := by
      simpa [hasResolvableTok, hts, hv] using h
    have he := ih h'
    rw [substChars.eq_def]
    simp only [hts, hv, he]
    simp [(tokenSplit_eq cs2 w rest2 hts).1]
  | case5 fuel cs2 hts ih =>
    intro h
    have h' : hasResolvableTok ph fuel ('\x7b' :: cs2) = false := by
      simpa [hasResolvableTok, hts] using h
    rw [substChars.eq_def]
    simp [hts, ih h']
  | case6 fuel cs hnm ih =>
    intro h
    rcases cs with _ | ⟨c2, cs'⟩
    · cases fuel <;> simp [substChars]
    · have hc2 : ¬ c2 = '\x7b' := fun hh => hnm cs' (by rw [hh])
      have h' : hasResolvableTok ph fuel (c2 :: cs') = false := by
        simpa [hasResolvableTok, hc2] using h
      simp [substChars, hc2, ih h']
  | case7 fuel c cs hne ih =>
    intro h
    have h' : hasResolvableTok ph fuel cs = false := by
      simpa [hasResolvableTok, hne] using h
    simp [substChars, hne, ih h']

theorem replacePlaceholdersInString_id (ph : List (String × String)) (s : String)
    (h : hasResolvableTok ph s.data.length s.data = false) :
    replacePlaceholdersInString s ph = s := by
  unfold replacePlaceholdersInString
  rw [substChars_id_of_no_tok ph _ _ h]

theorem replacePlaceholdersInEntries_id (ph : List (String × String)) :
    ∀ entries : List (String × JValue),
    (∀ p ∈ entries, hasResolvableTokV ph p.2 = false → replacePlaceholdersInValue ph p.2 = p.2) →
    hasResolvableTokEntries ph entries = false →
    replacePlaceholdersInEntries ph entries = entries := by
  intro entries hmem h
  induction entries with
  | nil => simp [replacePlaceholdersInEntries]
  | cons p rest ih =>
    obtain ⟨k, v⟩ := p
    simp only [hasResolvableTokEntries, Bool.or_eq_false_iff] at h
    simp only [replacePlaceholdersInEntries]
    rw [hmem (k, v) (by simp) h.1, ih (fun q hq => hmem q (by simp [hq])) h.2]

theorem replacePlaceholdersInList_id (ph : List (String × String)) :
    ∀ items : List JValue,
    (∀ v ∈ items, hasResolvableTokV ph v = false → replacePlaceholdersInValue ph v = v) →
    hasResolvableTokList ph items = false →
    replacePlaceholdersInList ph items = items := by
  intro items hmem h
  induction items with
  | nil => simp [replacePlaceholdersInList]
  | cons v rest ih =>
    simp only [hasResolvableTokList, Bool.or_eq_false_iff] at h
    simp only [replacePlaceholdersInList]
    rw [hmem v (by simp) h.1, ih (fun q hq => hmem q (by simp [hq])) h.2]

/-- On a value containing no resolvable placeholder token, one substitution
pass is the identity (strong induction on the size of the value). -/
theorem replacePlaceholdersInValue_id (ph : List (String × String)) :
    ∀ (n : Nat) (v : JValue), sizeOf v ≤ n → hasResolvableTokV ph v = false →
    replacePlaceholdersInValue ph v = v := by
  intro n
  induction n with
  | zero =>
    intro v hsz
    exfalso
    cases v <;> simp at hsz
  | succ n ih =>
    intro v hsz h
    cases v with
    | s str =>
      simp only [replacePlaceholdersInValue, JValue.s.injEq]
      exact replacePlaceholdersInString_id ph str (by simpa [hasResolvableTokV] using h)
    | m entries =>
      simp only [replacePlaceholdersInValue, JValue.m.injEq]
      refine replacePlaceholdersInEntries_id ph entries ?_ (by simpa [hasResolvableTokV] using h)
      intro p hp hpe
      refine ih p.2 ?_ hpe
      have h1 : sizeOf p < sizeOf entries := List.sizeOf_lt_of_mem hp
      have h2 : sizeOf p.2 < sizeOf p := by
        obtain ⟨a, b⟩ := p
        simp
      have h3 : sizeOf (JValue.m entries) = 1 + sizeOf entries := by simp
      omega
    | l items =>
      simp only [replacePlaceholdersInValue, JValue.l.injEq]
      refine replacePlaceholdersInList_id ph items ?_ (by simpa [hasResolvableTokV] using h)
      intro v hv hve
      refine ih v ?_ hve
      have h1 : sizeOf v < sizeOf items := List.sizeOf_lt_of_mem hv
      have h3 : sizeOf (JValue.l items) = 1 + sizeOf items := by simp
      omega
    | other k => simp [replacePlaceholdersInValue]

/-! ## `internal/service/asr.go`: `updatePlaceholders`

After each executed action, the orchestration loop feeds the action type and
the executor's summary to `updatePlaceholders`, which may record
`doc_url`/`doc_id`/`folder_url`/`folder_id`/`last_url`/`last_note` for
subsequent actions. -/

/-- `ActionSummary` of `internal/model/asr.go` (fields used by the core). -/
structure ActionSummary where
  type : String
  target : String
  id : String
  url : String
  note : String

/-- `updatePlaceholders` of `internal/service/asr.go`. -/
def updatePlaceholders (m : List (String × String)) (actionType : String)
    (summary : ActionSummary) : List (String × String) :=
  if actionType = "feishu_create_doc" then
    let m1 := if summary.url ≠ "" then setEntry (setEntry m "doc_url" summary.url) "last_url" summary.url else m
    let m2 := if summary.id ≠ "" then setEntry m1 "doc_id" summary.id else m1
    if summary.note ≠ "" then setEntry m2 "last_note" summary.note else m2
  else if actionType = "feishu_create_folder" then
    let m1 := if summary.url ≠ "" then setEntry (setEntry m "folder_url" summary.url) "last_url" summary.url else m
    let m2 := if summary.id ≠ "" then setEntry m1 "folder_id" summary.id else m1
    if summary.note ≠ "" then setEntry m2 "last_note" summary.note else m2
  else m

/-! ## The llm service: task plan model

Types of `internal/service/llm/service.go` (the wave scheduler). -/

/-- `ActionSpec` of `internal/model/action.go`, as produced by the skill
resolution.  `Params` is a possibly-nil dynamic map, hence the `Option`.
`TargetUserID`/`TargetChatID` are never read or written by the scheduler
core and are omitted. -/
structure ActionSpec where
  type : String
  params : Option (List (String × JValue))

/-- `TaskSpec`: one planned unit of work. -/
structure TaskSpec where
  id : String
  skill : String
  platform : String
  input : String
  dependsOn : List String

/-- `TaskPlan`: summary plus ordered task list. -/
structure TaskPlan where
  summary : String
  tasks : List TaskSpec

/-- `TaskResult`: per-task outcome. -/
structure TaskResult where
  taskID : String
  action : Option ActionSpec
  error : Option String
  outputs : List (String × String)

/-- `LLMActionOutput` of `internal/model/action.go`. -/
structure LLMActionOutput where
  intent : String
  actions : List ActionSpec
  reply : String

/-! ## `strings.ReplaceAll` and `resolvePlaceholders` of the llm service -/

/-- `strings.ReplaceAll` on characters: leftmost match, non-overlapping,
the replacement text is not rescanned.  Every call site passes a nonempty
pattern (a whole placeholder token `\x7b\x7bkey\x7d\x7d`), so the empty
pattern (for which Go would interleave the replacement between characters)
is excluded by the `pat ≠ []` guard and never exercised.  `fuel` majorizes
the number of steps; the input length always suffices. -/
def replaceAllChars (pat repl : List Char) : Nat → List Char → List Char
  | 0, l => l
  | _ + 1, [] => []
  | fuel + 1, c :: cs =>
    if pat ≠ [] ∧ pat.isPrefixOf (c :: cs) then
      repl ++ replaceAllChars pat repl fuel ((c :: cs).drop pat.length)
    else c :: replaceAllChars pat repl fuel cs

/-- `strings.ReplaceAll s pat repl`. -/
def replaceAllString (s pat repl : String) : String :=
  String.mk (replaceAllChars pat.data repl.data s.data.length s.data)

/-- `resolvePlaceholders` of the llm service: folds every recorded result's
outputs over the input, replacing each occurrence of the literal token
`\x7b\x7bkey\x7d\x7d` by the output value via `strings.ReplaceAll`.  The Go
map iteration order is modelled by the association-list order.  (The nil
check on `result.Outputs` is subsumed: folding an empty list is the
identity.) -/
def resolvePlaceholders (input : String) (depResults : List (String × TaskResult)) : String :=
  depResults.foldl
    (fun inp r =>
      r.2.outputs.foldl
        (fun inp2 kv => replaceAllString inp2 ("\x7b\x7b" ++ kv.1 ++ "\x7d\x7d") kv.2) inp)
    input

/-! ## `ExtractJSON` -/

/-- `strings.TrimSpace`. -/
def trimChars (l : List Char) : List Char :=
  ((l.dropWhile Char.isWhitespace).reverse.dropWhile Char.isWhitespace).reverse

/-- `ExtractJSON` of the llm service: trims whitespace, then cuts from the
first opening brace to the last closing brace when that span is nonempty. -/
def ExtractJSON (s : String) : String :=
  let t := trimChars s.data
  match t.findIdx? (fun c => c = '\x7b') with
  | none => String.mk t
  | some start =>
    match t.reverse.findIdx? (fun c => c = '\x7d') with
    | none => String.mk t
    | some rback =>
      let stop := t.length - 1 - rback
      if start < stop then String.mk ((t.drop start).take (stop + 1 - start))
      else String.mk t

/-! ## The external collaborators

The planner call, the per-skill chat call and JSON decoding are opaque
external collaborators (they live behind HTTP); the scheduler is verified
for every behaviour of this oracle. -/

/-- The opaque collaborators of the llm service: `planTasks`'s
planner call, `client.Chat`, and `json.Unmarshal` into an `ActionSpec`. -/
structure Oracle where
  planner : String → Except String TaskPlan
  chat : String → String → Except String String
  parse : String → Except String ActionSpec

/-- The per-skill parameter-extraction prompts (`skillPrompts`).  Their
literal text is passed opaquely to the chat collaborator and never inspected
by the scheduler, so it is abbreviated; what matters is exactly which skills
have a prompt. -/
def skillPrompts (skill : String) : Option String :=
  if skill = "create_doc" then some "skill prompt: create_doc"
  else if skill = "create_folder" then some "skill prompt: create_folder"
  else if skill = "send_message" then some "skill prompt: send_message"
  else none

/-! ## `executeTask`, `canExecute` -/

/-- `executeTask` of the llm service: resolve the prompt for the skill,
substitute placeholders in the task input (and only in the input), call the
chat collaborator, extract and decode the JSON, and default the `platform`
parameter for `send_message` actions from the task's platform hint. -/
def executeTask (O : Oracle) (task : TaskSpec) (depResults : List (String × TaskResult)) :
    TaskResult :=
  match skillPrompts task.skill with
  | none => ⟨task.id, none, some ("未知技能: " ++ task.skill), []⟩
  | some prompt =>
    let input := resolvePlaceholders task.input depResults
    match O.chat prompt input with
    | .error e => ⟨task.id, none, some ("LLM 调用失败: " ++ e), []⟩
    | .ok raw =>
      match O.parse (ExtractJSON raw) with
      | .error e => ⟨task.id, none, some ("解析参数失败: " ++ e), []⟩
      | .ok action =>
        let action' :=
          if task.skill = "send_message" then
            match action.params with
            | some ps =>
              if (alookup ps "platform").isNone then
                ⟨action.type, some (setEntry ps "platform" (JValue.s task.platform))⟩
              else action
            | none => action
          else action
        ⟨task.id, some action', none, []⟩

/-- `canExecute`: all dependencies are present in the results with no
error. -/
def canExecute (task : TaskSpec) (results : List (String × TaskResult)) : Bool :=
  task.dependsOn.all fun d =>
    match alookup results d with
    | some r => r.error.isNone
    | none => false

/-! ## `executeTasks`: the wave loop

The Go loop builds a `pending` map, then repeats: filter the ready tasks;
if none are ready fail with the deadlock error; otherwise run the whole
wave, record the results, drop the wave from `pending`, and abort if some
task of the wave failed.

The goroutines of one wave each receive the results map as it stood when
the wave was dispatched (tasks of one wave are mutually independent), and
their merged writes are keyed by the distinct ids of the wave, so the wave
is modelled as a fold over the ready list.  Ghost instrumentation (`trace`)
records, for each wave, the pending set and result map at the wave boundary
and the dispatched tasks; the Go code computes none of this.  `fuel` bounds
the number of loop iterations; since every iteration either returns or
strictly shrinks `pending`, `|pending| + 1` iterations always suffice
(proved below), which is exactly the termination argument for the Go
loop. -/

/-- Ghost record of one wave: the state at the wave boundary and the tasks
dispatched in the wave. -/
structure WaveRec where
  pendingBefore : List TaskSpec
  resultsBefore : List (String × TaskResult)
  dispatched : List TaskSpec

/-- Outcome of the scheduler: final results, ghost trace, optional error. -/
structure SchedOut where
  results : List (String × TaskResult)
  trace : List WaveRec
  error : Option String

/-- The deadlock error of `executeTasks` (cycle or failed dependency). -/
def deadlockMsg : String := "无法继续执行：存在循环依赖或依赖任务失败"

/-- The error `executeTasks` returns when a task of the wave failed. -/
def taskFailMsg (id err : String) : String := "任务 " ++ id ++ " 失败: " ++ err

/-- Register a task into the `pending` map (`pending[tasks[i].ID] = &tasks[i]`). -/
def setTask (m : List TaskSpec) (t : TaskSpec) : List TaskSpec :=
  match m with
  | [] => [t]
  | u :: rest => if u.id = t.id then t :: rest else u :: setTask rest t

/-- Build the initial `pending` map from the plan's task list. -/
def buildPending (tasks : List TaskSpec) : List TaskSpec :=
  tasks.foldl setTask []

/-- Dispatch one wave: every ready task executes against the wave-boundary
results and the results are merged in. -/
def runWave (O : Oracle) (ready : List TaskSpec) (results : List (String × TaskResult)) :
    List (String × TaskResult) :=
  ready.foldl (fun rs t => setEntry rs t.id (executeTask O t results)) results

/-- The post-wave failure check: first task of the wave whose recorded
result carries an error. -/
def firstFailure (ready : List TaskSpec) (results : List (String × TaskResult)) :
    Option (String × String) :=
  ready.findSome? fun t =>
    match alookup results t.id with
    | some r => r.error.map fun e => (t.id, e)
    | none => none

/-- The wave loop of `executeTasks`.  Returns `none` only on fuel
exhaustion, which `executeTasksAux_isSome` rules out for sufficient fuel. -/
def executeTasksAux (O : Oracle) : Nat → List TaskSpec → List (String × TaskResult) →
    List WaveRec → Option SchedOut
  | 0, _, _, _ => none
  | fuel + 1, pending, results, trace =>
    if pending.isEmpty then some ⟨results, trace, none⟩
    else
      let ready := pending.filter fun t => canExecute t results
      if ready.isEmpty then some ⟨results, trace, some deadlockMsg⟩
      else
        let results' := runWave O ready results
        let pending' := pending.filter fun t => ready.all fun r => r.id ≠ t.id
        let trace' := trace ++ [⟨pending, results, ready⟩]
        match firstFailure ready results' with
        | some f => some ⟨results', trace', some (taskFailMsg f.1 f.2)⟩
        | none => executeTasksAux O fuel pending' results' trace'

/-- `executeTasks` of the llm service.  The fuel `|tasks| + 1` is provably
sufficient, so the default branch of `getD` is unreachable. -/
def executeTasks (O : Oracle) (tasks : List TaskSpec) : SchedOut :=
  (executeTasksAux O (tasks.length + 1) (buildPending tasks) [] []).getD ⟨[], [], some deadlockMsg⟩

/-! ## `buildOutput` and `Process` -/

/-- `buildOutput`: the plan summary plus the produced actions collected in
the plan's original task order (the Go loop over `plan.Tasks` appending
`result.Action` when present). -/
def buildOutput (plan : TaskPlan) (results : List (String × TaskResult)) : LLMActionOutput :=
  ⟨plan.summary,
   plan.tasks.filterMap fun t =>
     match alookup results t.id with
     | some r => r.action
     | none => none,
   ""⟩

/-- The reply returned for an empty plan. -/
def emptyPlanReply : String := "抱歉，我不太理解您的意思。您可以尝试：创建文档、创建文件夹、发送消息。"

/-- `Process` of the llm service: plan, then execute, then aggregate.  On a
scheduler error the partial results are dropped and only the error is
returned (`return nil, err`). -/
def Process (O : Oracle) (userText : String) : Except String LLMActionOutput :=
  match O.planner userText with
  | .error e => .error ("plan tasks: " ++ e)
  | .ok plan =>
    if plan.tasks.isEmpty then .ok ⟨plan.summary, [], emptyPlanReply⟩
    else
      let out := executeTasks O plan.tasks
      match out.error with
      | some e => .error e
      | none => .ok (buildOutput plan out.results)

/-! ## Basic lemmas on `buildPending` and `runWave` -/

theorem alookup_eq_none_iff {α : Type} (m : List (String × α)) (k : String) :
    alookup m k = none ↔ ∀ e ∈ m, e.1 ≠ k := by
  induction m with
  | nil => simp [alookup]
  | cons e rest ih =>
    obtain ⟨k', v⟩ := e
    by_cases h : k' = k <;> simp [alookup, h, ih]

theorem setTask_mem (m : List TaskSpec) (t u : TaskSpec) :
    u ∈ setTask m t → u = t ∨ u ∈ m := by
  induction m with
  | nil => simp [setTask]
  | cons v rest ih =>
    by_cases h : v.id = t.id
    · simp only [setTask, h, if_true, List.mem_cons]
      tauto
    · simp only [setTask, h, if_false, List.mem_cons]
      intro hu
      rcases hu with hu | hu
      · tauto
      · rcases ih hu with hi | hi <;> tauto

theorem setTask_id_mem (m : List TaskSpec) (t : TaskSpec) (k : String) :
    k ∈ (setTask m t).map (fun u => u.id) ↔ k = t.id ∨ k ∈ m.map (fun u => u.id) := by
  induction m with
  | nil => simp [setTask]
  | cons v rest ih =>
    by_cases h : v.id = t.id
    · simp only [setTask, h, if_true, List.map_cons, List.mem_cons]
      constructor
      · rintro (h1 | h1) <;> tauto
      · rintro (h1 | h1 | h1)
        · exact Or.inl h1
        · exact Or.inl h1
        · exact Or.inr h1
    · simp only [setTask, h, if_false, List.map_cons, List.mem_cons, ih]
      tauto

theorem setTask_nodup (m : List TaskSpec) (t : TaskSpec)
    (h : (m.map (fun u => u.id)).Nodup) : ((setTask m t).map (fun u => u.id)).Nodup := by
  induction m with
  | nil => simp [setTask]
  | cons v rest ih =>
    simp only [List.map_cons, List.nodup_cons] at h
    by_cases hv : v.id = t.id
    · simp only [setTask, hv, if_true, List.map_cons, List.nodup_cons]
      exact ⟨hv ▸ h.1, h.2⟩
    · simp only [setTask, hv, if_false, List.map_cons, List.nodup_cons]
      refine ⟨?_, ih h.2⟩
      rw [setTask_id_mem]
      push_neg
      exact ⟨fun he => hv he, h.1⟩

theorem buildPending_go_nodup (tasks : List TaskSpec) :
    ∀ m, (m.map (fun u => u.id)).Nodup → ((tasks.foldl setTask m).map (fun u => u.id)).Nodup := by
  induction tasks with
  | nil => intro m h; simpa using h
  | cons t rest ih =>
    intro m h
    exact ih (setTask m t) (setTask_nodup m t h)

/-- The initial pending map always has pairwise distinct task ids
(a Go map cannot hold a key twice). -/
theorem buildPending_nodup (tasks : List TaskSpec) :
    ((buildPending tasks).map (fun u => u.id)).Nodup :=
  buildPending_go_nodup tasks [] (by simp)

theorem buildPending_go_id_mem (tasks : List TaskSpec) (k : String) :
    ∀ m, (k ∈ (tasks.foldl setTask m).map (fun u => u.id) ↔
      k ∈ m.map (fun u => u.id) ∨ k ∈ tasks.map (fun u => u.id)) := by
  induction tasks with
  | nil => intro m; simp
  | cons t rest ih =>
    intro m
    rw [List.foldl_cons, ih (setTask m t), setTask_id_mem]
    rw [List.map_cons, List.mem_cons]
    tauto

/-- The key set of the initial pending map is the id set of the plan. -/
theorem buildPending_id_mem (tasks : List TaskSpec) (k : String) :
    k ∈ (buildPending tasks).map (fun u => u.id) ↔ k ∈ tasks.map (fun u => u.id) := by
  unfold buildPending
  rw [buildPending_go_id_mem]
  simp

theorem buildPending_go_mem (tasks : List TaskSpec) (u : TaskSpec) :
    ∀ m, u ∈ tasks.foldl setTask m → u ∈ m ∨ u ∈ tasks := by
  induction tasks with
  | nil => intro m h; simp at h; tauto
  | cons t rest ih =>
    intro m h
    rcases ih (setTask m t) h with hm | hm
    · rcases setTask_mem m t u hm with h1 | h1
      · right; simp [h1]
      · left; exact h1
    · right; simp [hm]

/-- Every task of the pending map comes from the plan. -/
theorem buildPending_mem (tasks : List TaskSpec) (u : TaskSpec)
    (h : u ∈ buildPending tasks) : u ∈ tasks := by
  rcases buildPending_go_mem tasks u [] h with h1 | h1
  · simp at h1
  · exact h1

/-- With pairwise distinct ids (the documented plan invariant), the pending
map holds exactly the plan's tasks in order. -/
theorem setTask_append_of_fresh (m : List TaskSpec) (t : TaskSpec)
    (h : ∀ u ∈ m, u.id ≠ t.id) : setTask m t = m ++ [t] := by
  induction m with
  | nil => simp [setTask]
  | cons v mrest ihm =>
    have hv : v.id ≠ t.id := h v (by simp)
    simp only [setTask, hv, if_false, List.cons_append]
    rw [ihm]
    intro u hu
    exact h u (by simp [hu])

theorem buildPending_go_eq_of_nodup :
    ∀ (tasks : List TaskSpec) (m : List TaskSpec),
      (tasks.map (fun u => u.id)).Nodup →
      (∀ u ∈ m, ∀ v ∈ tasks, u.id ≠ v.id) →
      tasks.foldl setTask m = m ++ tasks := by
  intro tasks
  induction tasks with
  | nil => intro m _ _; simp
  | cons t rest ih =>
    intro m hnd h
    simp only [List.map_cons, List.nodup_cons] at hnd
    have hset : setTask m t = m ++ [t] :=
      setTask_append_of_fresh m t (fun u hu => h u hu t (by simp))
    rw [List.foldl_cons, hset, ih (m ++ [t]) hnd.2]
    · simp
    · intro u hu v hv
      simp only [List.mem_append, List.mem_singleton] at hu
      rcases hu with hu | hu
      · exact h u hu v (by simp [hv])
      · subst hu
        intro he
        exact hnd.1 (he ▸ List.mem_map_of_mem (fun w => w.id) hv)

/-- With pairwise distinct ids (the documented plan invariant), the pending
map holds exactly the plan's tasks in order. -/
theorem buildPending_eq_of_nodup (tasks : List TaskSpec)
    (h : (tasks.map (fun u => u.id)).Nodup) : buildPending tasks = tasks := by
  unfold buildPending
  rw [buildPending_go_eq_of_nodup tasks [] h (by simp)]
  simp

/-! ## Lemmas on `runWave` -/

theorem alookup_wave_go_of_not_mem (O : Oracle) (snap : List (String × TaskResult)) :
    ∀ (ready : List TaskSpec) (acc : List (String × TaskResult)) (k : String),
      (∀ t ∈ ready, t.id ≠ k) →
      alookup (ready.foldl (fun rs t => setEntry rs t.id (executeTask O t snap)) acc) k
        = alookup acc k := by
  intro ready
  induction ready with
  | nil => intro acc k _; simp
  | cons t rest ih =>
    intro acc k h
    rw [List.foldl_cons, ih _ k (fun u hu => h u (by simp [hu]))]
    exact alookup_setEntry_ne acc t.id k _ (h t (by simp))

theorem alookup_wave_go_mem (O : Oracle) (snap : List (String × TaskResult)) :
    ∀ (ready : List TaskSpec) (acc : List (String × TaskResult)) (t : TaskSpec),
      t ∈ ready → (ready.map (fun u => u.id)).Nodup →
      alookup (ready.foldl (fun rs u => setEntry rs u.id (executeTask O u snap)) acc) t.id
        = some (executeTask O t snap) := by
  intro ready
  induction ready with
  | nil => intro acc t h _; simp at h
  | cons u rest ih =>
    intro acc t ht hnd
    simp only [List.map_cons, List.nodup_cons] at hnd
    rcases List.mem_cons.mp ht with rfl | ht
    · rw [List.foldl_cons]
      rw [alookup_wave_go_of_not_mem O snap rest _ t.id ?_]
      · exact alookup_setEntry_self acc t.id _
      · intro v hv he
        exact hnd.1 (he ▸ List.mem_map_of_mem (fun w => w.id) hv)
    · rw [List.foldl_cons]
      exact ih _ t ht hnd.2

theorem alookup_wave_go_isSome (O : Oracle) (snap : List (String × TaskResult)) :
    ∀ (ready : List TaskSpec) (acc : List (String × TaskResult)) (k : String),
      (alookup (ready.foldl (fun rs t => setEntry rs t.id (executeTask O t snap)) acc) k).isSome
        ↔ ((alookup acc k).isSome ∨ k ∈ ready.map (fun u => u.id)) := by
  intro ready
  induction ready with
  | nil => intro acc k; simp
  | cons t rest ih =>
    intro acc k
    rw [List.foldl_cons, ih]
    rw [alookup_setEntry acc t.id k]
    by_cases h : t.id = k
    · simp [h]
    · simp [h]
      tauto

/-- Lookups present before a wave are untouched by the wave, provided the
wave's tasks are not yet recorded (the scheduler invariant). -/
theorem alookup_runWave_some (O : Oracle) (ready : List TaskSpec)
    (rs : List (String × TaskResult)) (k : String) (r : TaskResult)
    (hfresh : ∀ t ∈ ready, alookup rs t.id = none)
    (hk : alookup rs k = some r) :
    alookup (runWave O ready rs) k = some r := by
  unfold runWave
  rw [alookup_wave_go_of_not_mem O rs ready rs k ?_]
  · exact hk
  · intro t ht he
    have := hfresh t ht
    rw [he, hk] at this
    exact absurd this (by simp)

/-- Each task of a wave (distinct ids) ends the wave with exactly the result
of executing it against the wave-boundary snapshot. -/
theorem alookup_runWave_mem (O : Oracle) (ready : List TaskSpec)
    (rs : List (String × TaskResult)) (t : TaskSpec)
    (ht : t ∈ ready) (hnd : (ready.map (fun u => u.id)).Nodup) :
    alookup (runWave O ready rs) t.id = some (executeTask O t rs) :=
  alookup_wave_go_mem O rs ready rs t ht hnd

/-- The key set after a wave is the old key set plus the wave's ids. -/
theorem alookup_runWave_isSome (O : Oracle) (ready : List TaskSpec)
    (rs : List (String × TaskResult)) (k : String) :
    (alookup (runWave O ready rs) k).isSome
      ↔ ((alookup rs k).isSome ∨ k ∈ ready.map (fun u => u.id)) :=
  alookup_wave_go_isSome O rs ready rs k

/-! ## Termination of the wave loop -/

theorem filter_length_lt (l : List TaskSpec) (p : TaskSpec → Bool) (x : TaskSpec)
    (hx : x ∈ l) (hpx : p x = false) : (l.filter p).length < l.length := by
  induction l with
  | nil => simp at hx
  | cons a rest ih =>
    rcases List.mem_cons.mp hx with rfl | hx2
    · rw [List.filter_cons, hpx]
      simp only [List.length_cons]
      exact Nat.lt_succ_of_le (List.length_filter_le p rest)
    · rw [List.filter_cons]
      by_cases hpa : p a = true
      · simp only [hpa, if_true, List.length_cons]
        exact Nat.succ_lt_succ (ih hx2)
      · simp only [Bool.not_eq_true] at hpa
        simp only [hpa, Bool.false_eq_true, if_false, List.length_cons]
        exact Nat.lt_succ_of_lt (ih hx2)

theorem ready_not_kept (ready : List TaskSpec) (r : TaskSpec) (hr : r ∈ ready) :
    (ready.all fun u => u.id ≠ r.id) = false := by
  rw [List.all_eq_false]
  exact ⟨r, hr, by simp⟩

theorem executeTasksAux_isSome (O : Oracle) :
    ∀ (fuel : Nat) (pending : List TaskSpec) (results : List (String × TaskResult))
      (trace : List WaveRec), pending.length < fuel →
      (executeTasksAux O fuel pending results trace).isSome := by
  intro fuel
  induction fuel with
  | zero => intro pending _ _ h; omega
  | succ fuel ih =>
    intro pending results trace h
    simp only [executeTasksAux]
    by_cases h1 : pending.isEmpty
    · simp [h1]
    · simp only [h1, Bool.false_eq_true, if_false]
      by_cases h2 : (pending.filter fun t => canExecute t results).isEmpty
      · simp [h2]
      · simp only [h2, Bool.false_eq_true, if_false]
        rcases hff : firstFailure (pending.filter fun t => canExecute t results)
            (runWave O (pending.filter fun t => canExecute t results) results) with _ | f
        · simp only [hff]
          apply ih
          have hne : (pending.filter fun t => canExecute t results) ≠ [] := by
            intro he
            rw [he] at h2
            simp at h2
          obtain ⟨r, hr⟩ := List.exists_mem_of_ne_nil _ hne
          have hrp : r ∈ pending := (List.mem_filter.mp hr).1
          have hlt : (pending.filter fun t =>
              (pending.filter fun u => canExecute u results).all fun u => u.id ≠ t.id).length
                < pending.length :=
            filter_length_lt pending _ r hrp (ready_not_kept _ r hr)
          omega
        · simp [hff]

theorem executeTasksAux_fuel_irrel (O : Oracle) :
    ∀ (f1 f2 : Nat) (pending : List TaskSpec) (results : List (String × TaskResult))
      (trace : List WaveRec), pending.length < f1 → pending.length < f2 →
      executeTasksAux O f1 pending results trace = executeTasksAux O f2 pending results trace := by
  intro f1
  induction f1 with
  | zero => intro f2 pending _ _ h _; omega
  | succ f1 ih =>
    intro f2 pending results trace h1 h2
    rcases f2 with _ | f2
    · omega
    · simp only [executeTasksAux]
      by_cases hp : pending.isEmpty
      · simp [hp]
      · simp only [hp, Bool.false_eq_true, if_false]
        by_cases hr : (pending.filter fun t => canExecute t results).isEmpty
        · simp [hr]
        · simp only [hr, Bool.false_eq_true, if_false]
          rcases hff : firstFailure (pending.filter fun t => canExecute t results)
              (runWave O (pending.filter fun t => canExecute t results) results) with _ | f
          · simp only [hff]
            have hne : (pending.filter fun t => canExecute t results) ≠ [] := by
              intro he
              rw [he] at hr
              simp at hr
            obtain ⟨r, hrm⟩ := List.exists_mem_of_ne_nil _ hne
            have hrp : r ∈ pending := (List.mem_filter.mp hrm).1
            have hlt : (pending.filter fun t =>
                (pending.filter fun u => canExecute u results).all fun u => u.id ≠ t.id).length
                  < pending.length :=
              filter_length_lt pending _ r hrp (ready_not_kept _ r hrm)
            exact ih f2 _ _ _ (by omega) (by omega)
          · simp [hff]

theorem executeTasksAux_trace_shift (O : Oracle) :
    ∀ (fuel : Nat) (pending : List TaskSpec) (results : List (String × TaskResult))
      (trace : List WaveRec),
      executeTasksAux O fuel pending results trace
        = (executeTasksAux O fuel pending results []).map
            (fun o => ⟨o.results, trace ++ o.trace, o.error⟩) := by
  intro fuel
  induction fuel with
  | zero => intro pending results trace; rfl
  | succ fuel ih =>
    intro pending results trace
    simp only [executeTasksAux]
    by_cases hp : pending.isEmpty
    · simp [hp]
    · simp only [hp, Bool.false_eq_true, if_false]
      by_cases hr : (pending.filter fun t => canExecute t results).isEmpty
      · simp [hr]
      · simp only [hr, Bool.false_eq_true, if_false]
        rcases hff : firstFailure (pending.filter fun t => canExecute t results)
            (runWave O (pending.filter fun t => canExecute t results) results) with _ | f
        · simp only [hff]
          conv_lhs => rw [ih]
          conv_rhs => rw [ih]
          rcases executeTasksAux O fuel
              (pending.filter fun t =>
                (pending.filter fun u => canExecute u results).all fun u => u.id ≠ t.id)
              (runWave O (pending.filter fun t => canExecute t results) results) [] with _ | o
          · simp
          · simp
        · simp [hff]

/-! ## Wave partition lemmas -/

theorem mem_filter_ids (pending : List TaskSpec) (p : TaskSpec → Bool) (k : String)
    (h : k ∈ (pending.filter p).map (fun u => u.id)) : k ∈ pending.map (fun u => u.id) := by
  simp only [List.mem_map] at h ⊢
  obtain ⟨t, ht, rfl⟩ := h
  exact ⟨t, (List.mem_filter.mp ht).1, rfl⟩

theorem nodup_filter_ids (pending : List TaskSpec) (p : TaskSpec → Bool)
    (h : (pending.map (fun u => u.id)).Nodup) : ((pending.filter p).map (fun u => u.id)).Nodup :=
  ((List.filter_sublist pending).map (fun u => u.id)).nodup h

theorem mem_pendingNext_iff (pending ready : List TaskSpec) (k : String) :
    k ∈ (pending.filter fun t => ready.all fun r => r.id ≠ t.id).map (fun u => u.id)
      ↔ (k ∈ pending.map (fun u => u.id) ∧ k ∉ ready.map (fun u => u.id)) := by
  constructor
  · intro h
    simp only [List.mem_map] at h
    obtain ⟨t, ht, rfl⟩ := h
    obtain ⟨htp, hall⟩ := List.mem_filter.mp ht
    refine ⟨List.mem_map_of_mem _ htp, ?_⟩
    intro hk
    simp only [List.mem_map] at hk
    obtain ⟨r, hr, hre⟩ := hk
    rw [List.all_eq_true] at hall
    have := hall r hr
    simp only [decide_eq_true_eq] at this
    exact this hre
  · rintro ⟨h1, h2⟩
    simp only [List.mem_map] at h1
    obtain ⟨t, ht, rfl⟩ := h1
    refine List.mem_map_of_mem _ (List.mem_filter.mpr ⟨ht, ?_⟩)
    rw [List.all_eq_true]
    intro r hr
    simp only [decide_eq_true_eq]
    intro hre
    exact h2 (hre ▸ List.mem_map_of_mem (fun u => u.id) hr)

theorem firstFailure_spec (ready : List TaskSpec) (rs : List (String × TaskResult))
    (f : String × String) (h : firstFailure ready rs = some f) :
    ∃ t ∈ ready, t.id = f.1 ∧ ∃ r, alookup rs t.id = some r ∧ r.error = some f.2 := by
  unfold firstFailure at h
  obtain ⟨t, ht, hf⟩ := List.exists_of_findSome?_eq_some h
  refine ⟨t, ht, ?_⟩
  rcases ha : alookup rs t.id with _ | r
  · rw [ha] at hf; simp at hf
  · rw [ha] at hf
    dsimp only at hf
    rcases herr : r.error with _ | e
    · rw [herr] at hf; simp at hf
    · rw [herr] at hf
      rcases f with ⟨f1, f2⟩
      simp only [Option.map_some', Option.some.injEq, Prod.mk.injEq] at hf
      exact ⟨hf.1, r, rfl, by rw [herr, hf.2]⟩

theorem firstFailure_none (O : Oracle) (ready : List TaskSpec)
    (rs : List (String × TaskResult))
    (hnd : (ready.map (fun u => u.id)).Nodup)
    (hsucc : ∀ t ∈ ready, (executeTask O t rs).error = none) :
    firstFailure ready (runWave O ready rs) = none := by
  unfold firstFailure
  rw [List.findSome?_eq_none_iff]
  intro t ht
  rw [alookup_runWave_mem O ready rs t ht hnd]
  simp [hsucc t ht]

/-! ## The scheduler invariant and the master run lemma -/

/-- Ghost: all task ids dispatched over a trace, in dispatch order. -/
def flatDispatch (trace : List WaveRec) : List String :=
  (trace.map (fun rec => rec.dispatched.map (fun u => u.id))).flatten

/-- The scheduler invariant at a wave boundary, relative to the id set of
the initial pending map: pending ids are pairwise distinct, no pending task
has a recorded result, and the pending ids and recorded ids partition the
original id set. -/
structure LoopInv (origIds : List String) (pending : List TaskSpec)
    (results : List (String × TaskResult)) : Prop where
  nodup : (pending.map (fun u => u.id)).Nodup
  disj : ∀ t ∈ pending, alookup results t.id = none
  cover : ∀ k, k ∈ origIds ↔ (k ∈ pending.map (fun u => u.id) ∨ (alookup results k).isSome)

/-- Everything the wave loop guarantees about a completed run. -/
structure LoopFacts (O : Oracle) (origIds : List String) (pending : List TaskSpec)
    (results : List (String × TaskResult)) (out : SchedOut) : Prop where
  waves : ∀ rec ∈ out.trace,
    LoopInv origIds rec.pendingBefore rec.resultsBefore ∧
    rec.dispatched = rec.pendingBefore.filter (fun t => canExecute t rec.resultsBefore) ∧
    rec.dispatched ≠ []
  pendSub : ∀ rec ∈ out.trace, ∀ t ∈ rec.pendingBefore, t ∈ pending
  monoRec : ∀ rec ∈ out.trace, ∀ k r, alookup rec.resultsBefore k = some r →
    alookup out.results k = some r
  monoIn : ∀ k r, alookup results k = some r → alookup out.results k = some r
  dispRes : ∀ rec ∈ out.trace, ∀ t ∈ rec.dispatched,
    alookup out.results t.id = some (executeTask O t rec.resultsBefore)
  dispNodup : (flatDispatch out.trace).Nodup
  dispSub : ∀ k ∈ flatDispatch out.trace, k ∈ pending.map (fun u => u.id)
  keySet : ∀ k, (alookup out.results k).isSome ↔
    ((alookup results k).isSome ∨ k ∈ flatDispatch out.trace)
  full : out.error = none → ∀ k ∈ pending.map (fun u => u.id), k ∈ flatDispatch out.trace
  errCase : ∀ msg, out.error = some msg →
    msg = deadlockMsg ∨
    ∃ rec, out.trace.getLast? = some rec ∧ ∃ idf e, msg = taskFailMsg idf e ∧
      idf ∈ rec.dispatched.map (fun u => u.id) ∧
      ∃ r, alookup out.results idf = some r ∧ r.error = some e

theorem loop_master (O : Oracle) (origIds : List String) :
    ∀ (fuel : Nat) (pending : List TaskSpec) (results : List (String × TaskResult)) (out : SchedOut),
      executeTasksAux O fuel pending results [] = some out →
      LoopInv origIds pending results →
      LoopFacts O origIds pending results out := by
  intro fuel
  induction fuel with
  | zero => intro pending results out heq _; simp [executeTasksAux] at heq
  | succ fuel ih =>
    intro pending results out heq hinv
    simp only [executeTasksAux] at heq
    by_cases hp : pending.isEmpty
    · simp only [hp, if_true, Option.some.injEq] at heq
      subst heq
      have hpe : pending = [] := List.isEmpty_iff.mp hp
      subst hpe
      refine ⟨?_, ?_, ?_, ?_, ?_, ?_, ?_, ?_, ?_, ?_⟩
      · intro rec hrec; simp at hrec
      · intro rec hrec; simp at hrec
      · intro rec hrec; simp at hrec
      · intro k r h; exact h
      · intro rec hrec; simp at hrec
      · simp [flatDispatch]
      · intro k hk; simp [flatDispatch] at hk
      · intro k; simp [flatDispatch]
      · intro _ k hk; simp at hk
      · intro msg hmsg; simp at hmsg
    · simp only [hp, Bool.false_eq_true, if_false] at heq
      by_cases hre : (pending.filter fun t => canExecute t results).isEmpty
      · simp only [hre, if_true, Option.some.injEq] at heq
        subst heq
        refine ⟨?_, ?_, ?_, ?_, ?_, ?_, ?_, ?_, ?_, ?_⟩
        · intro rec hrec; simp at hrec
        · intro rec hrec; simp at hrec
        · intro rec hrec; simp at hrec
        · intro k r h; exact h
        · intro rec hrec; simp at hrec
        · simp [flatDispatch]
        · intro k hk; simp [flatDispatch] at hk
        · intro k; simp [flatDispatch]
        · intro habs; simp at habs
        · intro msg hmsg
          simp only [Option.some.injEq] at hmsg
          exact Or.inl hmsg.symm
      · simp only [hre, Bool.false_eq_true, if_false] at heq
        have hreadyNodup : ((pending.filter fun t => canExecute t results).map
            (fun u => u.id)).Nodup := nodup_filter_ids pending _ hinv.nodup
        have hfresh : ∀ t ∈ pending.filter fun t => canExecute t results,
            alookup results t.id = none :=
          fun t ht => hinv.disj t (List.mem_filter.mp ht).1
        have hreadyNe : (pending.filter fun t => canExecute t results) ≠ [] := by
          intro he
          rw [he] at hre
          simp at hre
        rcases hff : firstFailure (pending.filter fun t => canExecute t results)
            (runWave O (pending.filter fun t => canExecute t results) results) with _ | f
        · -- no task of the wave failed: the loop recurses
          rw [hff] at heq
          rw [executeTasksAux_trace_shift] at heq
          rcases haux : executeTasksAux O fuel
              (pending.filter fun t =>
                (pending.filter fun u => canExecute u results).all fun u => u.id ≠ t.id)
              (runWave O (pending.filter fun t => canExecute t results) results) [] with _ | oo
          · rw [haux] at heq; simp at heq
          · rw [haux] at heq
            simp only [Option.map_some', Option.some.injEq] at heq
            subst heq
            have hinv' : LoopInv origIds
                (pending.filter fun t =>
                  (pending.filter fun u => canExecute u results).all fun u => u.id ≠ t.id)
                (runWave O (pending.filter fun t => canExecute t results) results) := by
              refine ⟨nodup_filter_ids pending _ hinv.nodup, ?_, ?_⟩
              · intro t ht
                obtain ⟨htp, hall⟩ := List.mem_filter.mp ht
                rw [← Option.not_isSome_iff_eq_none]
                rw [alookup_runWave_isSome]
                rintro (hc | hc)
                · rw [hinv.disj t htp] at hc; simp at hc
                · simp only [List.mem_map] at hc
                  obtain ⟨r, hr, hre⟩ := hc
                  rw [List.all_eq_true] at hall
                  have := hall r hr
                  simp only [decide_eq_true_eq] at this
                  exact this hre
              · intro k
                rw [mem_pendingNext_iff, alookup_runWave_isSome]
                have hcov := hinv.cover k
                have hrp : k ∈ (pending.filter fun u => canExecute u results).map (fun u => u.id) →
                    k ∈ pending.map (fun u => u.id) := mem_filter_ids pending _ k
                tauto
            have hfacts := ih _ _ oo haux hinv'
            have hdflat : flatDispatch ((([] : List WaveRec) ++
                  [⟨pending, results, pending.filter fun t => canExecute t results⟩]) ++ oo.trace)
                = ((pending.filter fun t => canExecute t results).map fun u => u.id)
                    ++ flatDispatch oo.trace := by
              simp [flatDispatch]
            refine ⟨?_, ?_, ?_, ?_, ?_, ?_, ?_, ?_, ?_, ?_⟩
            · intro rec hrec
              simp only [List.nil_append, List.singleton_append, List.mem_cons] at hrec
              rcases hrec with rfl | hrec
              · exact ⟨hinv, rfl, hreadyNe⟩
              · exact hfacts.waves rec hrec
            · intro rec hrec t ht
              simp only [List.nil_append, List.singleton_append, List.mem_cons] at hrec
              rcases hrec with rfl | hrec
              · exact ht
              · exact (List.mem_filter.mp (hfacts.pendSub rec hrec t ht)).1
            · intro rec hrec k r hkr
              simp only [List.nil_append, List.singleton_append, List.mem_cons] at hrec
              rcases hrec with rfl | hrec
              · exact hfacts.monoIn k r (alookup_runWave_some O _ results k r hfresh hkr)
              · exact hfacts.monoRec rec hrec k r hkr
            · intro k r hkr
              exact hfacts.monoIn k r (alookup_runWave_some O _ results k r hfresh hkr)
            · intro rec hrec t ht
              simp only [List.nil_append, List.singleton_append, List.mem_cons] at hrec
              rcases hrec with rfl | hrec
              · exact hfacts.monoIn t.id _ (alookup_runWave_mem O _ results t ht hreadyNodup)
              · exact hfacts.dispRes rec hrec t ht
            · show (flatDispatch ((([] : List WaveRec) ++
                  [⟨pending, results, pending.filter fun t => canExecute t results⟩]) ++ oo.trace)).Nodup
              rw [hdflat, List.nodup_append]
              refine ⟨hreadyNodup, hfacts.dispNodup, ?_⟩
              intro k hk1 hk2
              have hsub := hfacts.dispSub k hk2
              rw [mem_pendingNext_iff] at hsub
              exact hsub.2 hk1
            · intro k hk
              rw [show flatDispatch ((([] : List WaveRec) ++
                  [⟨pending, results, pending.filter fun t => canExecute t results⟩]) ++ oo.trace)
                  = ((pending.filter fun t => canExecute t results).map fun u => u.id)
                      ++ flatDispatch oo.trace from hdflat, List.mem_append] at hk
              rcases hk with hk | hk
              · exact mem_filter_ids pending _ k hk
              · have hsub := hfacts.dispSub k hk
                rw [mem_pendingNext_iff] at hsub
                exact hsub.1
            · intro k
              show (alookup oo.results k).isSome ↔ _ ∨ k ∈ flatDispatch ((([] : List WaveRec) ++
                  [⟨pending, results, pending.filter fun t => canExecute t results⟩]) ++ oo.trace)
              rw [hdflat, List.mem_append]
              rw [hfacts.keySet k, alookup_runWave_isSome]
              tauto
            · intro herr k hk
              show k ∈ flatDispatch ((([] : List WaveRec) ++
                  [⟨pending, results, pending.filter fun t => canExecute t results⟩]) ++ oo.trace)
              rw [hdflat, List.mem_append]
              by_cases hkr : k ∈ (pending.filter fun u => canExecute u results).map (fun u => u.id)
              · exact Or.inl hkr
              · refine Or.inr (hfacts.full herr k ?_)
                rw [mem_pendingNext_iff]
                exact ⟨hk, hkr⟩
            · intro msg hmsg
              rcases hfacts.errCase msg hmsg with h | ⟨rec', hlast, hrest⟩
              · exact Or.inl h
              · refine Or.inr ⟨rec', ?_, hrest⟩
                rcases htr : oo.trace with _ | ⟨a, tl⟩
                · rw [htr] at hlast; simp at hlast
                · rw [htr] at hlast
                  simp only [List.nil_append, List.singleton_append, List.getLast?_cons_cons]
                  exact hlast
        · -- a task of the wave failed: the loop stops after this wave
          rw [hff] at heq
          simp only [Option.some.injEq] at heq
          subst heq
          obtain ⟨t0, ht0, ht0id, r0, hr0, hr0e⟩ := firstFailure_spec _ _ f hff
          refine ⟨?_, ?_, ?_, ?_, ?_, ?_, ?_, ?_, ?_, ?_⟩
          · intro rec hrec
            simp only [List.nil_append, List.mem_singleton] at hrec
            subst hrec
            exact ⟨hinv, rfl, hreadyNe⟩
          · intro rec hrec t ht
            simp only [List.nil_append, List.mem_singleton] at hrec
            subst hrec
            exact ht
          · intro rec hrec k r hkr
            simp only [List.nil_append, List.mem_singleton] at hrec
            subst hrec
            exact alookup_runWave_some O _ results k r hfresh hkr
          · intro k r hkr
            exact alookup_runWave_some O _ results k r hfresh hkr
          · intro rec hrec t ht
            simp only [List.nil_append, List.mem_singleton] at hrec
            subst hrec
            exact alookup_runWave_mem O _ results t ht hreadyNodup
          · simpa [flatDispatch] using hreadyNodup
          · intro k hk
            have hk2 : k ∈ (pending.filter fun t => canExecute t results).map
                (fun u => u.id) := by simpa [flatDispatch] using hk
            exact mem_filter_ids pending _ k hk2
          · intro k
            simp [flatDispatch, alookup_runWave_isSome]
          · intro habs
            simp at habs
          · intro msg hmsg
            simp only [Option.some.injEq] at hmsg
            subst hmsg
            refine Or.inr ⟨⟨pending, results, pending.filter fun t => canExecute t results⟩,
              by simp, f.1, f.2, rfl, ?_, r0, ?_, hr0e⟩
            · exact ht0id ▸ List.mem_map_of_mem (fun u => u.id) ht0
            · exact ht0id ▸ hr0

/-! ## Run-level corollaries -/

theorem setTask_length (m : List TaskSpec) (t : TaskSpec) :
    (setTask m t).length ≤ m.length + 1 := by
  induction m with
  | nil => simp [setTask]
  | cons v rest ih =>
    by_cases h : v.id = t.id <;> simp [setTask, h]
    omega

theorem buildPending_go_length (tasks : List TaskSpec) :
    ∀ m, (tasks.foldl setTask m).length ≤ m.length + tasks.length := by
  induction tasks with
  | nil => intro m; simp
  | cons t rest ih =>
    intro m
    calc (rest.foldl setTask (setTask m t)).length
        ≤ (setTask m t).length + rest.length := ih (setTask m t)
      _ ≤ m.length + 1 + rest.length := by have := setTask_length m t; omega
      _ = m.length + (t :: rest).length := by simp; omega

theorem buildPending_length (tasks : List TaskSpec) :
    (buildPending tasks).length ≤ tasks.length := by
  have := buildPending_go_length tasks []
  simpa [buildPending] using this

/-- The wave loop, run with the fuel `executeTasks` supplies, always
completes; `executeTasks` is that completed outcome. -/
theorem executeTasks_run (O : Oracle) (tasks : List TaskSpec) :
    executeTasksAux O (tasks.length + 1) (buildPending tasks) [] []
      = some (executeTasks O tasks) := by
  have hlen := buildPending_length tasks
  have h := executeTasksAux_isSome O (tasks.length + 1) (buildPending tasks) [] [] (by omega)
  unfold executeTasks
  rcases haux : executeTasksAux O (tasks.length + 1) (buildPending tasks) [] [] with _ | o
  · rw [haux] at h; simp at h
  · simp [haux]

/-- The invariant holds at the start of the loop. -/
theorem loopInv_init (tasks : List TaskSpec) :
    LoopInv (tasks.map (fun u => u.id)) (buildPending tasks) [] := by
  refine ⟨buildPending_nodup tasks, ?_, ?_⟩
  · intro t _; simp [alookup]
  · intro k
    rw [buildPending_id_mem]
    simp [alookup]

/-- The master facts, at the outcome of `executeTasks`. -/
theorem executeTasks_facts (O : Oracle) (tasks : List TaskSpec) :
    LoopFacts O (tasks.map (fun u => u.id)) (buildPending tasks) [] (executeTasks O tasks) :=
  loop_master O (tasks.map (fun u => u.id)) (tasks.length + 1) (buildPending tasks) [] _
    (executeTasks_run O tasks) (loopInv_init tasks)

/-! ## Progress under a topological rank (acyclic plans) -/

/-- The wave boundary invariant is preserved by one wave. -/
theorem loopInv_step (O : Oracle) (origIds : List String) (pending : List TaskSpec)
    (results : List (String × TaskResult)) (hinv : LoopInv origIds pending results) :
    LoopInv origIds
      (pending.filter fun t =>
        (pending.filter fun u => canExecute u results).all fun u => u.id ≠ t.id)
      (runWave O (pending.filter fun t => canExecute t results) results) := by
  refine ⟨nodup_filter_ids pending _ hinv.nodup, ?_, ?_⟩
  · intro t ht
    obtain ⟨htp, hall⟩ := List.mem_filter.mp ht
    rw [← Option.not_isSome_iff_eq_none]
    rw [alookup_runWave_isSome]
    rintro (hc | hc)
    · rw [hinv.disj t htp] at hc; simp at hc
    · simp only [List.mem_map] at hc
      obtain ⟨r, hr, hre⟩ := hc
      rw [List.all_eq_true] at hall
      have := hall r hr
      simp only [decide_eq_true_eq] at this
      exact this hre
  · intro k
    rw [mem_pendingNext_iff, alookup_runWave_isSome]
    have hcov := hinv.cover k
    have hrp : k ∈ (pending.filter fun u => canExecute u results).map (fun u => u.id) →
        k ∈ pending.map (fun u => u.id) := mem_filter_ids pending _ k
    tauto

theorem loop_rank (O : Oracle) (origIds : List String) (rank : String → Nat) :
    ∀ (fuel : Nat) (pending : List TaskSpec) (results : List (String × TaskResult)) (out : SchedOut),
      executeTasksAux O fuel pending results [] = some out →
      LoopInv origIds pending results →
      (∀ t ∈ pending, ∀ rs, (executeTask O t rs).error = none) →
      (∀ t ∈ pending, ∀ d ∈ t.dependsOn, rank d < rank t.id) →
      (∀ t ∈ pending, ∀ d ∈ t.dependsOn, d ∉ pending.map (fun u => u.id) →
        ∃ r, alookup results d = some r ∧ r.error = none) →
      out.error = none := by
  intro fuel
  induction fuel with
  | zero => intro pending results out heq _ _ _ _; simp [executeTasksAux] at heq
  | succ fuel ih =>
    intro pending results out heq hinv hsucc hrank hdeps
    simp only [executeTasksAux] at heq
    by_cases hp : pending.isEmpty
    · simp only [hp, if_true, Option.some.injEq] at heq
      subst heq
      rfl
    · simp only [hp, Bool.false_eq_true, if_false] at heq
      have hpne : pending ≠ [] := by
        intro he; rw [he] at hp; simp at hp
      obtain ⟨t0, ht0⟩ : ∃ t, pending.argmin (fun t => rank t.id) = some t := by
        rcases ha : pending.argmin (fun t => rank t.id) with _ | t
        · rw [List.argmin_eq_none] at ha
          exact absurd ha hpne
        · exact ⟨t, ha⟩
      have ht0mem : t0 ∈ pending := List.argmin_mem ht0
      have ht0ready : canExecute t0 results = true := by
        unfold canExecute
        rw [List.all_eq_true]
        intro d hd
        have hlt : rank d < rank t0.id := hrank t0 ht0mem d hd
        have hdnot : d ∉ pending.map (fun u => u.id) := by
          intro hmem
          simp only [List.mem_map] at hmem
          obtain ⟨u, hu, hue⟩ := hmem
          have := List.le_of_mem_argmin hu ht0
          rw [hue] at this
          omega
        obtain ⟨r, hr, hre⟩ := hdeps t0 ht0mem d hd hdnot
        rw [hr]
        simp [hre]
      have hre : ¬ (pending.filter fun t => canExecute t results).isEmpty = true := by
        rw [List.isEmpty_iff]
        intro he
        have hmemf : t0 ∈ pending.filter fun t => canExecute t results :=
          List.mem_filter.mpr ⟨ht0mem, ht0ready⟩
        rw [he] at hmemf
        simp at hmemf
      simp only [hre, Bool.false_eq_true, if_false] at heq
      have hreadyNodup : ((pending.filter fun t => canExecute t results).map
          (fun u => u.id)).Nodup := nodup_filter_ids pending _ hinv.nodup
      have hfreshNone : ∀ t ∈ pending.filter fun t => canExecute t results,
          alookup results t.id = none :=
        fun t ht => hinv.disj t (List.mem_filter.mp ht).1
      rw [firstFailure_none O _ results hreadyNodup
        (fun t ht => hsucc t (List.mem_filter.mp ht).1 results)] at heq
      rw [executeTasksAux_trace_shift] at heq
      rcases haux : executeTasksAux O fuel
          (pending.filter fun t =>
            (pending.filter fun u => canExecute u results).all fun u => u.id ≠ t.id)
          (runWave O (pending.filter fun t => canExecute t results) results) [] with _ | oo
      · rw [haux] at heq; simp at heq
      · rw [haux] at heq
        simp only [Option.map_some', Option.some.injEq] at heq
        subst heq
        refine ih _ _ oo haux (loopInv_step O origIds pending results hinv) ?_ ?_ ?_
        · intro t ht rs
          exact hsucc t (List.mem_filter.mp ht).1 rs
        · intro t ht d hd
          exact hrank t (List.mem_filter.mp ht).1 d hd
        · intro t ht d hd hdnot
          have htp : t ∈ pending := (List.mem_filter.mp ht).1
          by_cases hdr : d ∈ (pending.filter fun u => canExecute u results).map (fun u => u.id)
          · simp only [List.mem_map] at hdr
            obtain ⟨u, hu, hue⟩ := hdr
            refine ⟨executeTask O u results, ?_, hsucc u (List.mem_filter.mp hu).1 results⟩
            rw [← hue]
            exact alookup_runWave_mem O _ results u hu hreadyNodup
          · have hdnotp : d ∉ pending.map (fun u => u.id) := by
              intro hmem
              exact hdnot ((mem_pendingNext_iff pending _ d).mpr ⟨hmem, hdr⟩)
            obtain ⟨r, hr, hrerr⟩ := hdeps t htp d hd hdnotp
            exact ⟨r, alookup_runWave_some O _ results d r hfreshNone hr, hrerr⟩

/-! ## Starvation of a cyclic id set -/

/-- Any nonempty id set `S` in which every pending task with id in `S`
depends on some id in `S` (in particular the ids on a dependency cycle, or a
self-dependent task) is never dispatched: the loop ends in an error with
none of `S` recorded or dispatched. -/
theorem loop_cycle (O : Oracle) (S : List String) :
    ∀ (fuel : Nat) (pending : List TaskSpec) (results : List (String × TaskResult)) (out : SchedOut),
      executeTasksAux O fuel pending results [] = some out →
      (∀ idv ∈ S, ∀ t ∈ pending, t.id = idv → ∃ d ∈ t.dependsOn, d ∈ S) →
      (∀ idv ∈ S, idv ∈ pending.map (fun u => u.id)) →
      (∀ idv ∈ S, alookup results idv = none) →
      S ≠ [] →
      out.error.isSome ∧ (∀ idv ∈ S, alookup out.results idv = none) ∧
        (∀ idv ∈ S, idv ∉ flatDispatch out.trace) := by
  intro fuel
  induction fuel with
  | zero => intro pending results out heq _ _ _ _; simp [executeTasksAux] at heq
  | succ fuel ih =>
    intro pending results out heq hcyc hsub hres hSne
    obtain ⟨id0, hid0⟩ := List.exists_mem_of_ne_nil S hSne
    simp only [executeTasksAux] at heq
    by_cases hp : pending.isEmpty
    · exfalso
      have := hsub id0 hid0
      rw [List.isEmpty_iff.mp hp] at this
      simp at this
    · simp only [hp, Bool.false_eq_true, if_false] at heq
      have hreadyS : ∀ t ∈ pending.filter fun t => canExecute t results, t.id ∉ S := by
        intro t ht htS
        obtain ⟨htp, hexec⟩ := List.mem_filter.mp ht
        obtain ⟨d, hd, hdS⟩ := hcyc t.id htS t htp rfl
        unfold canExecute at hexec
        rw [List.all_eq_true] at hexec
        have := hexec d hd
        rw [hres d hdS] at this
        simp at this
      have hSnotReady : ∀ idv ∈ S,
          idv ∉ (pending.filter fun t => canExecute t results).map (fun u => u.id) := by
        intro idv hidv hmem
        simp only [List.mem_map] at hmem
        obtain ⟨t, ht, hte⟩ := hmem
        exact hreadyS t ht (hte ▸ hidv)
      by_cases hre : (pending.filter fun t => canExecute t results).isEmpty
      · simp only [hre, if_true, Option.some.injEq] at heq
        subst heq
        refine ⟨by simp, fun idv hidv => hres idv hidv, ?_⟩
        intro idv _
        simp [flatDispatch]
      · simp only [hre, Bool.false_eq_true, if_false] at heq
        have hSnone' : ∀ idv ∈ S,
            alookup (runWave O (pending.filter fun t => canExecute t results) results) idv
              = none := by
          intro idv hidv
          rw [← Option.not_isSome_iff_eq_none, alookup_runWave_isSome]
          rintro (hc | hc)
          · rw [hres idv hidv] at hc; simp at hc
          · exact hSnotReady idv hidv hc
        rcases hff : firstFailure (pending.filter fun t => canExecute t results)
            (runWave O (pending.filter fun t => canExecute t results) results) with _ | f
        · rw [hff] at heq
          rw [executeTasksAux_trace_shift] at heq
          rcases haux : executeTasksAux O fuel
              (pending.filter fun t =>
                (pending.filter fun u => canExecute u results).all fun u => u.id ≠ t.id)
              (runWave O (pending.filter fun t => canExecute t results) results) [] with _ | oo
          · rw [haux] at heq; simp at heq
          · rw [haux] at heq
            simp only [Option.map_some', Option.some.injEq] at heq
            subst heq
            have hrec := ih _ _ oo haux ?_ ?_ hSnone' hSne
            · refine ⟨hrec.1, hrec.2.1, ?_⟩
              intro idv hidv
              have hd := hrec.2.2 idv hidv
              intro hmem
              have hflat : flatDispatch ((([] : List WaveRec) ++
                  [⟨pending, results, pending.filter fun t => canExecute t results⟩]) ++ oo.trace)
                  = ((pending.filter fun t => canExecute t results).map fun u => u.id)
                      ++ flatDispatch oo.trace := by
                simp [flatDispatch]
              rw [hflat, List.mem_append] at hmem
              rcases hmem with hmem | hmem
              · exact hSnotReady idv hidv hmem
              · exact hd hmem
            · intro idv hidv t ht hte
              exact hcyc idv hidv t (List.mem_filter.mp ht).1 hte
            · intro idv hidv
              rw [mem_pendingNext_iff]
              exact ⟨hsub idv hidv, hSnotReady idv hidv⟩
        · rw [hff] at heq
          simp only [Option.some.injEq] at heq
          subst heq
          refine ⟨by simp, hSnone', ?_⟩
          intro idv hidv hmem
          have hflat : flatDispatch (([] : List WaveRec) ++
              [⟨pending, results, pending.filter fun t => canExecute t results⟩])
              = ((pending.filter fun t => canExecute t results).map fun u => u.id) := by
            simp [flatDispatch]
          rw [hflat] at hmem
          exact hSnotReady idv hidv hmem

/-! ## Small bridges used by the claim theorems -/

theorem getLast?_mem_list {α : Type} (l : List α) (a : α) (h : l.getLast? = some a) :
    a ∈ l := by
  have hx : a ∈ l.getLast? := Option.mem_def.mpr h
  obtain ⟨hne, rfl⟩ := List.mem_getLast?_eq_getLast hx
  exact List.getLast_mem hne

theorem alookup_isSome_iff_mem_keys {α : Type} (m : List (String × α)) (k : String) :
    (alookup m k).isSome ↔ k ∈ m.map (fun e => e.1) := by
  induction m with
  | nil => simp [alookup]
  | cons e rest ih =>
    obtain ⟨k0, v0⟩ := e
    by_cases h : k0 = k
    · simp [alookup, h]
    · simp [alookup, h, ih, Ne.symm h]

theorem toFinset_eq_of_mem_iff (l1 l2 : List String) (h : ∀ k, k ∈ l1 ↔ k ∈ l2) :
    l1.toFinset = l2.toFinset := by
  apply Finset.ext
  intro a
  simp only [List.mem_toFinset]
  exact h a

/-- With a skill-resolution collaborator that succeeds on the plan's tasks,
an error of `executeTasks` can only be the deadlock error. -/
theorem executeTasks_error_of_succ (O : Oracle) (tasks : List TaskSpec)
    (hsucc : ∀ t ∈ tasks, ∀ rs, (executeTask O t rs).error = none) :
    (executeTasks O tasks).error = none ∨ (executeTasks O tasks).error = some deadlockMsg := by
  rcases herr : (executeTasks O tasks).error with _ | msg
  · exact Or.inl rfl
  · have hfacts := executeTasks_facts O tasks
    rcases hfacts.errCase msg herr with h | ⟨rec, hlast, idf, e, hmsg, hidf, r, hr, hre⟩
    · rw [h]; exact Or.inr rfl
    · exfalso
      have hrecmem : rec ∈ (executeTasks O tasks).trace := getLast?_mem_list _ rec hlast
      simp only [List.mem_map] at hidf
      obtain ⟨t, ht, hte⟩ := hidf
      have hres := hfacts.dispRes rec hrecmem t ht
      rw [hte, hr] at hres
      have htasks : t ∈ tasks := by
        have h1 : t ∈ rec.pendingBefore := by
          have hw := (hfacts.waves rec hrecmem).2.1
          rw [hw] at ht
          exact (List.mem_filter.mp ht).1
        exact buildPending_mem tasks t (hfacts.pendSub rec hrecmem t h1)
      have := hsucc t htasks rec.resultsBefore
      simp only [Option.some.injEq] at hres
      rw [← hres] at this
      rw [this] at hre
      simp at hre

/-! ## Absence of a pattern makes `strings.ReplaceAll` the identity -/

/-- Whether the nonempty pattern occurs in the character list (the
occurrence test underlying `strings.ReplaceAll`). -/
def containsPat (pat : List Char) : Nat → List Char → Bool
  | 0, _ => false
  | _ + 1, [] => false
  | fuel + 1, c :: cs =>
    if pat ≠ [] ∧ pat.isPrefixOf (c :: cs) then true else containsPat pat fuel cs

theorem replaceAllChars_id_of_not_contains (pat repl : List Char) :
    ∀ fuel l, containsPat pat fuel l = false → replaceAllChars pat repl fuel l = l := by
  intro fuel
  induction fuel with
  | zero => intro l _; rfl
  | succ fuel ih =>
    intro l h
    rcases l with _ | ⟨c, cs⟩
    · rfl
    · by_cases hc : pat ≠ [] ∧ pat.isPrefixOf (c :: cs)
      · exfalso
        unfold containsPat at h
        rw [if_pos hc] at h
        exact absurd h (by simp)
      · unfold containsPat at h
        rw [if_neg hc] at h
        unfold replaceAllChars
        rw [if_neg hc, ih cs h]

/-- The occurrence test on strings. -/
def containsTok (pat s : String) : Bool := containsPat pat.data s.data.length s.data

theorem replaceAllString_id_of_not_contains (s pat repl : String)
    (h : containsTok pat s = false) : replaceAllString s pat repl = s := by
  obtain ⟨l⟩ := s
  unfold replaceAllString
  rw [replaceAllChars_id_of_not_contains pat.data repl.data _ _ h]

theorem foldl_replaceAllString_id (input : String) :
    ∀ outs : List (String × String),
      (∀ kv ∈ outs, containsTok ("\x7b\x7b" ++ kv.1 ++ "\x7d\x7d") input = false) →
      outs.foldl (fun inp2 kv =>
        replaceAllString inp2 ("\x7b\x7b" ++ kv.1 ++ "\x7d\x7d") kv.2) input = input := by
  intro outs
  induction outs with
  | nil => intro _; rfl
  | cons kv rest ih =>
    intro h
    rw [List.foldl_cons,
      replaceAllString_id_of_not_contains input _ kv.2 (h kv (by simp))]
    exact ih (fun kv2 hkv2 => h kv2 (by simp [hkv2]))

/-- `resolvePlaceholders` leaves the input untouched when no output key's
token occurs in it: unresolved keys are inert, and no error is possible. -/
theorem resolvePlaceholders_id (input : String) :
    ∀ rs : List (String × TaskResult),
      (∀ e ∈ rs, ∀ kv ∈ e.2.outputs,
        containsTok ("\x7b\x7b" ++ kv.1 ++ "\x7d\x7d") input = false) →
    resolvePlaceholders input rs = input := by
  intro rs
  induction rs with
  | nil => intro _; rfl
  | cons e rest ih =>
    intro h
    unfold resolvePlaceholders
    rw [List.foldl_cons, foldl_replaceAllString_id input e.2.outputs (h e (by simp))]
    exact ih (fun e2 he2 => h e2 (by simp [he2]))

/-! ## Starvation of a task with a dangling dependency -/

/-- A pending task depending on an id that is neither a pending task's id
nor a recorded result is never dispatched, and the loop ends in an error. -/
theorem loop_dangling (O : Oracle) (d tid : String) :
    ∀ (fuel : Nat) (pending : List TaskSpec) (results : List (String × TaskResult)) (out : SchedOut),
      executeTasksAux O fuel pending results [] = some out →
      (∀ t ∈ pending, t.id = tid → d ∈ t.dependsOn) →
      tid ∈ pending.map (fun u => u.id) →
      d ∉ pending.map (fun u => u.id) →
      alookup results d = none →
      out.error.isSome ∧ tid ∉ flatDispatch out.trace := by
  intro fuel
  induction fuel with
  | zero => intro pending results out heq _ _ _ _; simp [executeTasksAux] at heq
  | succ fuel ih =>
    intro pending results out heq hdep htid hdnot hdres
    simp only [executeTasksAux] at heq
    by_cases hp : pending.isEmpty
    · exfalso
      rw [List.isEmpty_iff.mp hp] at htid
      simp at htid
    · simp only [hp, Bool.false_eq_true, if_false] at heq
      have htidNotReady : tid ∉ (pending.filter fun t => canExecute t results).map
          (fun u => u.id) := by
        intro hmem
        simp only [List.mem_map] at hmem
        obtain ⟨t, ht, hte⟩ := hmem
        obtain ⟨htp, hexec⟩ := List.mem_filter.mp ht
        have hd := hdep t htp hte
        unfold canExecute at hexec
        rw [List.all_eq_true] at hexec
        have := hexec d hd
        rw [hdres] at this
        simp at this
      by_cases hre : (pending.filter fun t => canExecute t results).isEmpty
      · simp only [hre, if_true, Option.some.injEq] at heq
        subst heq
        exact ⟨by simp, by intro hmem; simp [flatDispatch] at hmem⟩
      · simp only [hre, Bool.false_eq_true, if_false] at heq
        have hdnot' : d ∉ (pending.filter fun t => canExecute t results).map
            (fun u => u.id) :=
          fun hmem => hdnot (mem_filter_ids pending _ d hmem)
        have hdres' : alookup (runWave O (pending.filter fun t => canExecute t results)
            results) d = none := by
          rw [← Option.not_isSome_iff_eq_none, alookup_runWave_isSome]
          rintro (hc | hc)
          · rw [hdres] at hc; simp at hc
          · exact hdnot' hc
        rcases hff : firstFailure (pending.filter fun t => canExecute t results)
            (runWave O (pending.filter fun t => canExecute t results) results) with _ | f
        · rw [hff] at heq
          rw [executeTasksAux_trace_shift] at heq
          rcases haux : executeTasksAux O fuel
              (pending.filter fun t =>
                (pending.filter fun u => canExecute u results).all fun u => u.id ≠ t.id)
              (runWave O (pending.filter fun t => canExecute t results) results) [] with _ | oo
          · rw [haux] at heq; simp at heq
          · rw [haux] at heq
            simp only [Option.map_some', Option.some.injEq] at heq
            subst heq
            have hrec := ih _ _ oo haux ?_ ?_ ?_ hdres'
            · refine ⟨hrec.1, ?_⟩
              intro hmem
              have hflat : flatDispatch ((([] : List WaveRec) ++
                  [⟨pending, results, pending.filter fun t => canExecute t results⟩]) ++ oo.trace)
                  = ((pending.filter fun t => canExecute t results).map fun u => u.id)
                      ++ flatDispatch oo.trace := by
                simp [flatDispatch]
              rw [hflat, List.mem_append] at hmem
              rcases hmem with hmem | hmem
              · exact htidNotReady hmem
              · exact hrec.2 hmem
            · intro t ht hte
              exact hdep t (List.mem_filter.mp ht).1 hte
            · rw [mem_pendingNext_iff]
              exact ⟨htid, htidNotReady⟩
            · intro hmem
              rw [mem_pendingNext_iff] at hmem
              exact hdnot hmem.1
        · rw [hff] at heq
          simp only [Option.some.injEq] at heq
          subst heq
          refine ⟨by simp, ?_⟩
          intro hmem
          have hflat : flatDispatch (([] : List WaveRec) ++
              [⟨pending, results, pending.filter fun t => canExecute t results⟩])
              = ((pending.filter fun t => canExecute t results).map fun u => u.id) := by
            simp [flatDispatch]
          rw [hflat] at hmem
          exact htidNotReady hmem

/-! ## Claim theorems -/

/-- C10: executing an action whose type is neither `feishu_create_doc` nor
`feishu_create_folder` leaves the placeholder map unchanged, and even those
two types change no key outside
doc_url/doc_id/folder_url/folder_id/last_url/last_note. -/
theorem claim_C10 (m : List (String × String)) (actionType : String)
    (summary : ActionSummary) :
    (actionType ≠ "feishu_create_doc" → actionType ≠ "feishu_create_folder" →
      updatePlaceholders m actionType summary = m) ∧
    (∀ k, k ∉ ["doc_url", "doc_id", "folder_url", "folder_id", "last_url", "last_note"] →
      alookup (updatePlaceholders m actionType summary) k = alookup m k) := by
  constructor
  · intro h1 h2
    unfold updatePlaceholders
    rw [if_neg h1, if_neg h2]
  · intro k hk
    simp only [List.mem_cons, List.not_mem_nil, or_false, not_or] at hk
    obtain ⟨n1, n2, n3, n4, n5, n6⟩ := hk
    have m1 : "doc_url" ≠ k := fun he => n1 he.symm
    have m2 : "doc_id" ≠ k := fun he => n2 he.symm
    have m3 : "folder_url" ≠ k := fun he => n3 he.symm
    have m4 : "folder_id" ≠ k := fun he => n4 he.symm
    have m5 : "last_url" ≠ k := fun he => n5 he.symm
    have m6 : "last_note" ≠ k := fun he => n6 he.symm
    unfold updatePlaceholders
    split_ifs <;>
      simp [alookup_setEntry_ne, m1, m2, m3, m4, m5, m6]

/-- C10 witness: a `send_message` action touches nothing, and a
`feishu_create_doc` action does not touch the key `other`. -/
theorem claim_C10_witness :
    (updatePlaceholders [("other", "v")] "send_message" ⟨"send_message", "u", "i", "url", "n"⟩
      = [("other", "v")]) ∧
    alookup (updatePlaceholders [("other", "v")] "feishu_create_doc"
      ⟨"feishu_doc", "u", "i", "url", "n"⟩) "other"
      = alookup [("other", "v")] "other" :=
  ⟨(claim_C10 [("other", "v")] "send_message" ⟨"send_message", "u", "i", "url", "n"⟩).1
      (by decide) (by decide),
   (claim_C10 [("other", "v")] "feishu_create_doc" ⟨"feishu_doc", "u", "i", "url", "n"⟩).2
      "other" (by decide)⟩

/-- C6 counterexample: substitution is not idempotent for every store: with
store a ↦ "(token b)", b ↦ "X", the second pass resolves the token that the
first pass inserted. -/
theorem claim_C6_counterexample :
    ¬ (replacePlaceholdersInValue [("a", "\x7b\x7bb\x7d\x7d"), ("b", "X")]
         (replacePlaceholdersInValue [("a", "\x7b\x7bb\x7d\x7d"), ("b", "X")]
           (JValue.s "\x7b\x7ba\x7d\x7d"))
       = replacePlaceholdersInValue [("a", "\x7b\x7bb\x7d\x7d"), ("b", "X")]
           (JValue.s "\x7b\x7ba\x7d\x7d")) := by
  intro h
  rw [show replacePlaceholdersInValue [("a", "\x7b\x7bb\x7d\x7d"), ("b", "X")]
        (JValue.s "\x7b\x7ba\x7d\x7d") = JValue.s "\x7b\x7bb\x7d\x7d" from rfl] at h
  rw [show replacePlaceholdersInValue [("a", "\x7b\x7bb\x7d\x7d"), ("b", "X")]
        (JValue.s "\x7b\x7bb\x7d\x7d") = JValue.s "X" from rfl] at h
  injection h with h2
  exact absurd h2 (by decide)

/-- C6 amended: on any nested value containing no resolvable placeholder
token (no token whose key is in the store), one substitution pass is the
identity, and hence substitution is idempotent there.  (A second pass can
differ only when a store value itself contains a resolvable token, as the
counterexample shows.) -/
theorem claim_C6_amended (ph : List (String × String)) (v : JValue)
    (h : hasResolvableTokV ph v = false) :
    replacePlaceholdersInValue ph v = v ∧
    replacePlaceholdersInValue ph (replacePlaceholdersInValue ph v)
      = replacePlaceholdersInValue ph v := by
  have h1 := replacePlaceholdersInValue_id ph (sizeOf v) v le_rfl h
  refine ⟨h1, ?_⟩
  rw [h1]
  exact h1

/-- C6 witness: a nested value whose only token has a key absent from the
store is untouched and idempotent. -/
theorem claim_C6_witness :
    replacePlaceholdersInValue [("doc_url", "U")]
        (JValue.m [("k", JValue.l [JValue.s "text \x7b\x7bmissing\x7d\x7d", JValue.other 3])])
      = JValue.m [("k", JValue.l [JValue.s "text \x7b\x7bmissing\x7d\x7d", JValue.other 3])] :=
  (claim_C6_amended [("doc_url", "U")]
    (JValue.m [("k", JValue.l [JValue.s "text \x7b\x7bmissing\x7d\x7d", JValue.other 3])])
    (by rfl)).1

/-- A concrete always-succeeding collaborator used to exercise the
scheduler theorems on sample plans. -/
def sampleOracle : Oracle :=
  ⟨fun _ => Except.error "unused planner",
   fun _ _ => Except.ok "\x7b\x7d",
   fun _ => Except.ok ⟨"feishu_create_doc", some []⟩⟩

/-- Sample plan: a document-creation task... -/
def taskA : TaskSpec := ⟨"task_1", "create_doc", "feishu", "建周报文档", []⟩

/-- ...and a message task depending on it. -/
def taskB : TaskSpec :=
  ⟨"task_2", "send_message", "feishu", "发送链接（需要\x7b\x7bdoc_url\x7d\x7d）", ["task_1"]⟩

/-- C5: the aggregated output lists the produced actions in the plan's
original task order, skipping tasks without an action, and depends on the
results map only through lookups — any two maps with the same lookups (for
example the same wave results merged in a different completion order) give
the same output. -/
theorem claim_C5 (plan : TaskPlan) (rs1 rs2 : List (String × TaskResult))
    (h : ∀ k, alookup rs1 k = alookup rs2 k) :
    buildOutput plan rs1 = buildOutput plan rs2 ∧
    (buildOutput plan rs1).actions = plan.tasks.filterMap (fun t =>
      match alookup rs1 t.id with
      | some r => r.action
      | none => none) := by
  constructor
  · unfold buildOutput
    simp only [LLMActionOutput.mk.injEq, true_and, and_true]
    apply List.filterMap_congr
    intro t _
    rw [h t.id]
  · rfl

/-- Sample per-task results for the aggregation claims. -/
def resA : TaskResult := ⟨"task_1", some ⟨"feishu_create_doc", none⟩, none, []⟩

/-- A failed sample result carrying no action. -/
def resB : TaskResult := ⟨"task_2", none, some "boom", []⟩

/-- The two sample results merged in plan order... -/
def rsAB : List (String × TaskResult) := [("task_1", resA), ("task_2", resB)]

/-- ...and merged in the opposite completion order. -/
def rsBA : List (String × TaskResult) := [("task_2", resB), ("task_1", resA)]

/-- C5 witness: two result maps listing the waves' results in opposite
completion orders produce the same output, ordered by the plan. -/
theorem claim_C5_witness :
    buildOutput ⟨"s", [taskA, taskB]⟩ rsAB = buildOutput ⟨"s", [taskA, taskB]⟩ rsBA ∧
    (buildOutput ⟨"s", [taskA, taskB]⟩ rsAB).actions
      = [taskA, taskB].filterMap (fun t =>
          match alookup rsAB t.id with
          | some r => r.action
          | none => none) :=
  claim_C5 ⟨"s", [taskA, taskB]⟩ rsAB rsBA (by
    intro k
    by_cases h1 : "task_1" = k
    · by_cases h2 : "task_2" = k
      · exact absurd (h1.trans h2.symm) (by decide)
      · simp [rsAB, rsBA, alookup, h1, h2]
    · by_cases h2 : "task_2" = k
      · simp [rsAB, rsBA, alookup, h1, h2]
      · simp [rsAB, rsBA, alookup, h1, h2])

/-- Collaborator for the C7 counterexample: the skill resolution returns a
`send_message` action without a platform parameter. -/
def c7Oracle : Oracle :=
  ⟨fun _ => Except.error "unused planner",
   fun _ _ => Except.ok "\x7b\x7d",
   fun _ => Except.ok ⟨"send_message", some []⟩⟩

/-- A task whose platform hint is itself a placeholder token. -/
def c7Task : TaskSpec := ⟨"task_2", "send_message", "\x7b\x7bdoc_url\x7d\x7d", "发消息", ["task_1"]⟩

/-- A recorded dependency result whose outputs resolve `doc_url`. -/
def c7Results : List (String × TaskResult) :=
  [("task_1", ⟨"task_1", none, none, [("doc_url", "URL")]⟩)]

/-- C7 counterexample: the platform hint is NOT substituted before the
skill call — the dispatched action carries the literal token as its
platform even though the store resolves `doc_url` (substituting it would
have produced "URL"). -/
theorem claim_C7_counterexample :
    (executeTask c7Oracle c7Task c7Results).action
        = some ⟨"send_message", some [("platform", JValue.s "\x7b\x7bdoc_url\x7d\x7d")]⟩ ∧
    resolvePlaceholders "\x7b\x7bdoc_url\x7d\x7d" c7Results = "URL" ∧
    ("\x7b\x7bdoc_url\x7d\x7d" : String) ≠ "URL" :=
  ⟨rfl, rfl, by decide⟩

/-- C7 amended: before the skill call, placeholders are substituted in the
task's input text only; tokens whose key is absent from every recorded
output are left as literal text and cause no error; the platform hint is
not substituted — when the decoded `send_message` action lacks a platform
parameter, the hint is inserted verbatim. -/
theorem claim_C7_amended (O : Oracle) (task : TaskSpec) (rs : List (String × TaskResult))
    (prompt raw : String) (a0 : ActionSpec) (ps : List (String × JValue))
    (hskill : task.skill = "send_message")
    (hprompt : skillPrompts task.skill = some prompt)
    (hchat : O.chat prompt (resolvePlaceholders task.input rs) = Except.ok raw)
    (hparse : O.parse (ExtractJSON raw) = Except.ok a0)
    (hps : a0.params = some ps)
    (hplat : alookup ps "platform" = none) :
    executeTask O task rs
      = ⟨task.id, some ⟨a0.type, some (setEntry ps "platform" (JValue.s task.platform))⟩,
          none, []⟩ ∧
    ((∀ e ∈ rs, ∀ kv ∈ e.2.outputs,
        containsTok ("\x7b\x7b" ++ kv.1 ++ "\x7d\x7d") task.input = false) →
      resolvePlaceholders task.input rs = task.input) := by
  constructor
  · unfold executeTask
    rw [hprompt]
    dsimp only
    rw [hchat]
    dsimp only
    rw [hparse]
    dsimp only
    rw [hskill]
    simp only [if_true, reduceIte]
    rw [hps]
    dsimp only
    rw [hplat]
    simp
  · intro hno
    exact resolvePlaceholders_id task.input rs hno

/-- C7 witness: the amended behaviour on the concrete counterexample data. -/
theorem claim_C7_witness :
    executeTask c7Oracle c7Task c7Results
      = ⟨"task_2", some ⟨"send_message",
          some (setEntry [] "platform" (JValue.s "\x7b\x7bdoc_url\x7d\x7d"))⟩, none, []⟩ ∧
    ((∀ e ∈ c7Results, ∀ kv ∈ e.2.outputs,
        containsTok ("\x7b\x7b" ++ kv.1 ++ "\x7d\x7d") c7Task.input = false) →
      resolvePlaceholders c7Task.input c7Results = c7Task.input) :=
  claim_C7_amended c7Oracle c7Task c7Results "skill prompt: send_message" "\x7b\x7d"
    ⟨"send_message", some []⟩ [] rfl rfl rfl rfl rfl rfl

/-- C1: for a plan with pairwise-distinct ids (the data-model invariant)
whose dependency graph is acyclic — witnessed by a topological rank — and
whose dependsOn ids all refer to tasks of the plan, with skill calls that
succeed, the executeTasks loop terminates (any sufficient fuel completes,
with the same outcome), reports no error, dispatches every task of the plan
exactly once (the dispatched ids are a permutation of the plan's ids), and
records a result for every task. -/
theorem claim_C1 (O : Oracle) (tasks : List TaskSpec) (rank : String → Nat)
    (hnd : (tasks.map (fun u => u.id)).Nodup)
    (hrank : ∀ t ∈ tasks, ∀ d ∈ t.dependsOn, rank d < rank t.id)
    (href : ∀ t ∈ tasks, ∀ d ∈ t.dependsOn, d ∈ tasks.map (fun u => u.id))
    (hsucc : ∀ t ∈ tasks, ∀ rs, (executeTask O t rs).error = none) :
    (∀ fuel, tasks.length < fuel →
      executeTasksAux O fuel (buildPending tasks) [] [] = some (executeTasks O tasks)) ∧
    (executeTasks O tasks).error = none ∧
    (flatDispatch (executeTasks O tasks).trace).Perm (tasks.map (fun u => u.id)) ∧
    (∀ k ∈ tasks.map (fun u => u.id), (alookup (executeTasks O tasks).results k).isSome) := by
  have hterm : ∀ fuel, tasks.length < fuel →
      executeTasksAux O fuel (buildPending tasks) [] [] = some (executeTasks O tasks) := by
    intro fuel hf
    have hlen := buildPending_length tasks
    rw [executeTasksAux_fuel_irrel O fuel (tasks.length + 1) _ _ _ (by omega) (by omega)]
    exact executeTasks_run O tasks
  have herr : (executeTasks O tasks).error = none := by
    refine loop_rank O (tasks.map (fun u => u.id)) rank (tasks.length + 1)
      (buildPending tasks) [] _ (executeTasks_run O tasks) (loopInv_init tasks) ?_ ?_ ?_
    · intro t ht rs
      exact hsucc t (buildPending_mem tasks t ht) rs
    · intro t ht d hd
      exact hrank t (buildPending_mem tasks t ht) d hd
    · intro t ht d hd hdnot
      exfalso
      apply hdnot
      rw [buildPending_id_mem]
      exact href t (buildPending_mem tasks t ht) d hd
  have hfacts := executeTasks_facts O tasks
  refine ⟨hterm, herr, ?_, ?_⟩
  · rw [List.perm_ext_iff_of_nodup hfacts.dispNodup hnd]
    intro k
    constructor
    · intro hk
      have := hfacts.dispSub k hk
      rwa [buildPending_id_mem] at this
    · intro hk
      refine hfacts.full herr k ?_
      rwa [buildPending_id_mem]
  · intro k hk
    rw [hfacts.keySet k]
    refine Or.inr (hfacts.full herr k ?_)
    rwa [buildPending_id_mem]

/-- C1 witness: the sample two-task chain runs to completion, each task
dispatched once. -/
theorem claim_C1_witness :
    (executeTasksAux sampleOracle 3 (buildPending [taskA, taskB]) [] []
      = some (executeTasks sampleOracle [taskA, taskB])) ∧
    (executeTasks sampleOracle [taskA, taskB]).error = none ∧
    (flatDispatch (executeTasks sampleOracle [taskA, taskB]).trace).Perm
      ([taskA, taskB].map (fun u => u.id)) := by
  have h := claim_C1 sampleOracle [taskA, taskB] (fun s => if s = "task_2" then 1 else 0)
    (by decide) (by decide) (by decide)
    (by
      intro t ht rs
      rcases List.mem_cons.mp ht with rfl | ht2
      · rfl
      · rcases List.mem_cons.mp ht2 with rfl | ht3
        · rfl
        · simp at ht3)
  exact ⟨h.1 3 (by decide), h.2.1, h.2.2.1⟩

/-- C2: a plan containing a dependency cycle — a nonempty id set S each of
whose tasks depends on another id of S, which covers self-dependency — with
succeeding skill calls terminates (any sufficient fuel completes) with
exactly the deadlock error, and no task of the cycle is ever dispatched or
has a result recorded. -/
theorem claim_C2 (O : Oracle) (tasks : List TaskSpec) (S : List String)
    (hS : S ≠ [])
    (hcyc : ∀ idv ∈ S, ∀ t ∈ tasks, t.id = idv → ∃ d ∈ t.dependsOn, d ∈ S)
    (hsub : ∀ idv ∈ S, idv ∈ tasks.map (fun u => u.id))
    (hsucc : ∀ t ∈ tasks, ∀ rs, (executeTask O t rs).error = none) :
    (∀ fuel, tasks.length < fuel →
      executeTasksAux O fuel (buildPending tasks) [] [] = some (executeTasks O tasks)) ∧
    (executeTasks O tasks).error = some deadlockMsg ∧
    (∀ idv ∈ S, idv ∉ flatDispatch (executeTasks O tasks).trace) ∧
    (∀ idv ∈ S, alookup (executeTasks O tasks).results idv = none) := by
  have hterm : ∀ fuel, tasks.length < fuel →
      executeTasksAux O fuel (buildPending tasks) [] [] = some (executeTasks O tasks) := by
    intro fuel hf
    have hlen := buildPending_length tasks
    rw [executeTasksAux_fuel_irrel O fuel (tasks.length + 1) _ _ _ (by omega) (by omega)]
    exact executeTasks_run O tasks
  have hcy := loop_cycle O S (tasks.length + 1) (buildPending tasks) [] _
    (executeTasks_run O tasks)
    (fun idv hidv t ht hte => hcyc idv hidv t (buildPending_mem tasks t ht) hte)
    (fun idv hidv => (buildPending_id_mem tasks idv).mpr (hsub idv hidv))
    (fun idv _ => rfl)
    hS
  have hdead : (executeTasks O tasks).error = some deadlockMsg := by
    rcases executeTasks_error_of_succ O tasks hsucc with h | h
    · exfalso
      have h1 := hcy.1
      rw [h] at h1
      simp at h1
    · exact h
  exact ⟨hterm, hdead, hcy.2.2, hcy.2.1⟩

/-- A self-dependent task: the cycle edge case called out by the spec. -/
def taskC : TaskSpec := ⟨"task_1", "send_message", "feishu", "发消息", ["task_1"]⟩

/-- C2 witness: a self-dependent task deadlocks without being dispatched. -/
theorem claim_C2_witness :
    (executeTasksAux sampleOracle 2 (buildPending [taskC]) [] []
      = some (executeTasks sampleOracle [taskC])) ∧
    (executeTasks sampleOracle [taskC]).error = some deadlockMsg ∧
    ("task_1" ∉ flatDispatch (executeTasks sampleOracle [taskC]).trace) ∧
    (alookup (executeTasks sampleOracle [taskC]).results "task_1" = none) := by
  have h := claim_C2 sampleOracle [taskC] ["task_1"] (by decide) (by decide) (by decide)
    (by
      intro t ht rs
      rcases List.mem_cons.mp ht with rfl | ht2
      · rfl
      · simp at ht2)
  exact ⟨h.1 2 (by decide), h.2.1, h.2.2.1 "task_1" (by decide), h.2.2.2 "task_1" (by decide)⟩

/-- C9: at every wave boundary the pending map and the results map have
disjoint key sets whose union is exactly the plan's id set, and over the
whole run — success or any error path — no task id is ever dispatched
twice. -/
theorem claim_C9 (O : Oracle) (tasks : List TaskSpec) :
    (∀ rec ∈ (executeTasks O tasks).trace,
      (∀ t ∈ rec.pendingBefore, alookup rec.resultsBefore t.id = none) ∧
      ((rec.pendingBefore.map (fun u => u.id)) ++
          (rec.resultsBefore.map (fun e => e.1))).toFinset
        = (tasks.map (fun u => u.id)).toFinset) ∧
    (flatDispatch (executeTasks O tasks).trace).Nodup := by
  have hfacts := executeTasks_facts O tasks
  refine ⟨?_, hfacts.dispNodup⟩
  intro rec hrec
  obtain ⟨hinv, _, _⟩ := hfacts.waves rec hrec
  refine ⟨hinv.disj, ?_⟩
  apply toFinset_eq_of_mem_iff
  intro k
  rw [List.mem_append, ← alookup_isSome_iff_mem_keys]
  exact (hinv.cover k).symm

/-- The result the sample oracle records for the first sample task. -/
def resA1 : TaskResult := ⟨"task_1", some ⟨"feishu_create_doc", some []⟩, none, []⟩

/-- C9 witness: the first wave boundary of the sample run. -/
theorem claim_C9_witness :
    ((∀ t ∈ [taskA, taskB], alookup ([] : List (String × TaskResult)) t.id = none) ∧
      (([taskA, taskB].map (fun u => u.id)) ++
          (([] : List (String × TaskResult)).map (fun e => e.1))).toFinset
        = ([taskA, taskB].map (fun u => u.id)).toFinset) ∧
    (flatDispatch (executeTasks sampleOracle [taskA, taskB]).trace).Nodup := by
  have hmem : (⟨[taskA, taskB], [], [taskA]⟩ : WaveRec)
      ∈ (executeTasks sampleOracle [taskA, taskB]).trace := by
    rw [show (executeTasks sampleOracle [taskA, taskB]).trace
        = [⟨[taskA, taskB], [], [taskA]⟩, ⟨[taskB], [("task_1", resA1)], [taskB]⟩] from rfl]
    exact List.mem_cons_self _ _
  exact ⟨(claim_C9 sampleOracle [taskA, taskB]).1 ⟨[taskA, taskB], [], [taskA]⟩ hmem,
    (claim_C9 sampleOracle [taskA, taskB]).2⟩

/-- C3: a task is dispatched only when every dependency has a recorded,
error-free result at the wave boundary (so never before the dependency's
result was recorded); and if a dependency's recorded result carries an
error, no task depending on it is ever dispatched. -/
theorem claim_C3 (O : Oracle) (tasks : List TaskSpec) :
    (∀ rec ∈ (executeTasks O tasks).trace, ∀ T ∈ rec.dispatched, ∀ D ∈ T.dependsOn,
      ∃ r, alookup rec.resultsBefore D = some r ∧ r.error = none) ∧
    (∀ D r, alookup (executeTasks O tasks).results D = some r → r.error.isSome →
      ∀ rec ∈ (executeTasks O tasks).trace, ∀ T ∈ rec.dispatched, D ∉ T.dependsOn) := by
  have hfacts := executeTasks_facts O tasks
  have hpart1 : ∀ rec ∈ (executeTasks O tasks).trace, ∀ T ∈ rec.dispatched, ∀ D ∈ T.dependsOn,
      ∃ r, alookup rec.resultsBefore D = some r ∧ r.error = none := by
    intro rec hrec T hT D hD
    obtain ⟨_, hdisp, _⟩ := hfacts.waves rec hrec
    rw [hdisp] at hT
    have hexec := (List.mem_filter.mp hT).2
    unfold canExecute at hexec
    rw [List.all_eq_true] at hexec
    have hthis := hexec D hD
    rcases ha : alookup rec.resultsBefore D with _ | r
    · rw [ha] at hthis; simp at hthis
    · rw [ha] at hthis
      dsimp only at hthis
      exact ⟨r, rfl, Option.isNone_iff_eq_none.mp (by simpa using hthis)⟩
  refine ⟨hpart1, ?_⟩
  intro D r hDr hIsSome rec hrec T hT hD
  obtain ⟨r2, hr2, hr2e⟩ := hpart1 rec hrec T hT D hD
  have hmono := hfacts.monoRec rec hrec D r2 hr2
  rw [hDr] at hmono
  simp only [Option.some.injEq] at hmono
  rw [hmono, hr2e] at hIsSome
  simp at hIsSome

/-- C3 witness: in the sample run, the dependent task is dispatched in wave
two, after its dependency's successful result is recorded. -/
theorem claim_C3_witness :
    ∃ r, alookup [("task_1", resA1)] "task_1" = some r ∧ r.error = none := by
  have hmem : (⟨[taskB], [("task_1", resA1)], [taskB]⟩ : WaveRec)
      ∈ (executeTasks sampleOracle [taskA, taskB]).trace := by
    rw [show (executeTasks sampleOracle [taskA, taskB]).trace
        = [⟨[taskA, taskB], [], [taskA]⟩, ⟨[taskB], [("task_1", resA1)], [taskB]⟩] from rfl]
    exact List.mem_cons_of_mem _ (List.mem_cons_self _ _)
  exact (claim_C3 sampleOracle [taskA, taskB]).1 ⟨[taskB], [("task_1", resA1)], [taskB]⟩ hmem
    taskB (List.mem_cons_self _ _) "task_1" (by simp [taskB])

/-- A task whose dependency id names no task of its plan. -/
def c8Task : TaskSpec := ⟨"task_1", "send_message", "feishu", "发消息", ["task_9"]⟩

/-- A collaborator whose planner returns the dangling-dependency plan. -/
def c8Oracle : Oracle :=
  ⟨fun _ => Except.ok ⟨"s", [c8Task]⟩,
   fun _ _ => Except.ok "\x7b\x7d",
   fun _ => Except.ok ⟨"send_message", some []⟩⟩

/-- C8 counterexample: a dangling dependency reference is NOT rejected by
any validation step before scheduling — `Process` runs the scheduler, which
discovers the problem at scheduling time and fails with the same deadlock
error used for cycles, after zero waves. -/
theorem claim_C8_counterexample :
    Process c8Oracle "u" = Except.error deadlockMsg ∧
    (executeTasks c8Oracle [c8Task]).error = some deadlockMsg ∧
    (executeTasks c8Oracle [c8Task]).trace = [] ∧
    (executeTasks c8Oracle [c8Task]).results = [] :=
  ⟨rfl, rfl, rfl, rfl⟩

/-- C8 amended: a plan with a dangling dependency reference is not
validated up front; it reaches the scheduler, which terminates with an
error (the deadlock error of the no-progress check) without ever
dispatching the dangling task, and `Process` surfaces that scheduling
error. -/
theorem claim_C8_amended (O : Oracle) (tasks : List TaskSpec) (t0 : TaskSpec) (d : String)
    (hnd : (tasks.map (fun u => u.id)).Nodup)
    (ht0 : t0 ∈ tasks) (hd : d ∈ t0.dependsOn)
    (hdnot : d ∉ tasks.map (fun u => u.id)) :
    (executeTasks O tasks).error.isSome ∧
    t0.id ∉ flatDispatch (executeTasks O tasks).trace ∧
    (∀ userText plan, O.planner userText = Except.ok plan → plan.tasks = tasks →
      ∃ msg, (executeTasks O tasks).error = some msg ∧
        Process O userText = Except.error msg) := by
  have huniq : ∀ t ∈ buildPending tasks, t.id = t0.id → d ∈ t.dependsOn := by
    intro t ht hte
    have htt : t ∈ tasks := buildPending_mem tasks t ht
    have heq : t = t0 := List.inj_on_of_nodup_map hnd htt ht0 hte
    rw [heq]
    exact hd
  have hdang := loop_dangling O d t0.id (tasks.length + 1) (buildPending tasks) [] _
    (executeTasks_run O tasks) huniq
    ((buildPending_id_mem tasks t0.id).mpr (List.mem_map_of_mem _ ht0))
    (fun hmem => hdnot ((buildPending_id_mem tasks d).mp hmem))
    rfl
  refine ⟨hdang.1, hdang.2, ?_⟩
  intro userText plan hplan hptasks
  obtain ⟨msg, hmsg⟩ := Option.isSome_iff_exists.mp hdang.1
  refine ⟨msg, hmsg, ?_⟩
  unfold Process
  rw [hplan]
  dsimp only
  have hie : plan.tasks.isEmpty = false := by
    rw [hptasks]
    rcases tasks with _ | ⟨a, rest⟩
    · simp at ht0
    · rfl
  simp only [hie, Bool.false_eq_true, if_false]
  rw [hptasks, hmsg]

/-- C8 witness: the concrete dangling-dependency plan. -/
theorem claim_C8_witness :
    (executeTasks c8Oracle [c8Task]).error.isSome ∧
    c8Task.id ∉ flatDispatch (executeTasks c8Oracle [c8Task]).trace ∧
    (∃ msg, (executeTasks c8Oracle [c8Task]).error = some msg ∧
      Process c8Oracle "u" = Except.error msg) := by
  have h := claim_C8_amended c8Oracle [c8Task] c8Task "task_9" (by decide)
    (List.mem_singleton.mpr rfl) (by decide) (by decide)
  exact ⟨h.1, h.2.1, h.2.2 "u" ⟨"s", [c8Task]⟩ rfl rfl⟩

/-- A task whose skill call will succeed... -/
def c4TaskA : TaskSpec := ⟨"task_1", "create_doc", "feishu", "ok", []⟩

/-- ...and a same-wave task whose skill call will fail. -/
def c4TaskB : TaskSpec := ⟨"task_2", "create_doc", "feishu", "fail", []⟩

/-- A collaborator whose chat call fails exactly on the input "fail". -/
def c4Oracle : Oracle :=
  ⟨fun _ => Except.ok ⟨"s", [c4TaskA, c4TaskB]⟩,
   fun _ input => if input = "fail" then Except.error "boom" else Except.ok "\x7b\x7d",
   fun _ => Except.ok ⟨"feishu_create_doc", some []⟩⟩

/-- C4 counterexample: when a task's skill resolution fails, the results of
tasks that completed successfully are preserved in the scheduler's results
map — but `Process` returns only the error: the caller receives no partial
actions alongside it. -/
theorem claim_C4_counterexample :
    alookup (executeTasks c4Oracle [c4TaskA, c4TaskB]).results "task_1"
      = some ⟨"task_1", some ⟨"feishu_create_doc", some []⟩, none, []⟩ ∧
    Process c4Oracle "u" = Except.error (taskFailMsg "task_2" "LLM 调用失败: boom") :=
  ⟨rfl, rfl⟩

/-- C4 amended: when the scheduler stops with an error, every dispatched
task — including the successful tasks of the failing wave and of earlier
waves — keeps its recorded result in the scheduler's results map; a
non-deadlock error names a task of the last dispatched wave together with
its error, and no further waves exist after it; but `Process` discards the
partial results and returns only the error to the caller. -/
theorem claim_C4_amended (O : Oracle) (tasks : List TaskSpec) (e : String)
    (herr : (executeTasks O tasks).error = some e) :
    (∀ rec ∈ (executeTasks O tasks).trace, ∀ t ∈ rec.dispatched,
      alookup (executeTasks O tasks).results t.id = some (executeTask O t rec.resultsBefore)) ∧
    (e ≠ deadlockMsg → ∃ rec, (executeTasks O tasks).trace.getLast? = some rec ∧
      ∃ idf msg, e = taskFailMsg idf msg ∧ idf ∈ rec.dispatched.map (fun u => u.id) ∧
      ∃ r, alookup (executeTasks O tasks).results idf = some r ∧ r.error = some msg) ∧
    (∀ userText plan, O.planner userText = Except.ok plan → plan.tasks = tasks →
      tasks ≠ [] → Process O userText = Except.error e) := by
  have hfacts := executeTasks_facts O tasks
  refine ⟨hfacts.dispRes, ?_, ?_⟩
  · intro hne
    rcases hfacts.errCase e herr with h | ⟨rec, hlast, idf, msg, hmsg, hidf, r, hr, hre⟩
    · exact absurd h hne
    · exact ⟨rec, hlast, idf, msg, hmsg, hidf, r, hr, hre⟩
  · intro userText plan hplan hptasks hne
    unfold Process
    rw [hplan]
    dsimp only
    have hie : plan.tasks.isEmpty = false := by
      rw [hptasks]
      rcases tasks with _ | _
      · exact absurd rfl hne
      · rfl
    simp only [hie, Bool.false_eq_true, if_false]
    rw [hptasks, herr]

/-- C4 witness: the concrete mixed-outcome wave. -/
theorem claim_C4_witness :
    (∃ rec, (executeTasks c4Oracle [c4TaskA, c4TaskB]).trace.getLast? = some rec ∧
      ∃ idf msg, taskFailMsg "task_2" "LLM 调用失败: boom" = taskFailMsg idf msg ∧
        idf ∈ rec.dispatched.map (fun u => u.id) ∧
        ∃ r, alookup (executeTasks c4Oracle [c4TaskA, c4TaskB]).results idf = some r ∧
          r.error = some msg) ∧
    Process c4Oracle "u" = Except.error (taskFailMsg "task_2" "LLM 调用失败: boom") := by
  have h := claim_C4_amended c4Oracle [c4TaskA, c4TaskB]
    (taskFailMsg "task_2" "LLM 调用失败: boom") rfl
  exact ⟨h.2.1 (by decide), h.2.2 "u" ⟨"s", [c4TaskA, c4TaskB]⟩ rfl rfl (List.cons_ne_nil _ _)⟩

end Sayso
